import Mathlib

/-!
Verification of the Transkriptor worker core against its specification.

The Python sources under `python/` are shallowly embedded over `ℚ`
(for Python floats) and `List Char` (for Python strings).  Python's
`round(x, n)` uses round-half-to-even; it is modelled by `pyRound`
below.  Only the ASCII and Danish characters actually used by the
program are covered by the case functions and the `\w` character class.
-/

set_option maxRecDepth 4000

namespace Transkriptor

/-- Round-half-to-even on rationals, the semantics of Python's built-in
`round` to an integer. -/
def pyRound (x : ℚ) : ℤ :=
  if x - ⌊x⌋ < 1/2 then ⌊x⌋
  else if 1/2 < x - ⌊x⌋ then ⌊x⌋ + 1
  else if ⌊x⌋ % 2 = 0 then ⌊x⌋ else ⌊x⌋ + 1

/-- Python's `round(x, k)` where `m = 10^k`: scale, round half-to-even,
unscale. -/
def roundTo (m : ℕ) (x : ℚ) : ℚ := (pyRound (x * m) : ℚ) / m

/-- Python `round(x, 3)`, used for all stored times. -/
def round3 (x : ℚ) : ℚ := roundTo 1000 x

/-- Python `round(x, 2)`, used for progress percentages. -/
def round2 (x : ℚ) : ℚ := roundTo 100 x

/-- Python `round(x, 4)`, used for stored confidences. -/
def round4 (x : ℚ) : ℚ := roundTo 10000 x

/-- `q` is an integer multiple of `1 / m` (e.g. `m = 1000`: a value on
the millisecond grid, exactly representable at 3 decimals). -/
def onGrid (m : ℕ) (q : ℚ) : Prop := ∃ n : ℤ, q = (n : ℚ) / m

theorem pyRound_intCast (n : ℤ) : pyRound (n : ℚ) = n := by
  unfold pyRound
  norm_num

theorem onGrid_add {m : ℕ} {p q : ℚ} (hp : onGrid m p) (hq : onGrid m q) :
    onGrid m (p + q) := by
  obtain ⟨a, ha⟩ := hp
  obtain ⟨b, hb⟩ := hq
  exact ⟨a + b, by push_cast [ha, hb]; ring⟩

theorem onGrid_min {m : ℕ} {p q : ℚ} (hp : onGrid m p) (hq : onGrid m q) :
    onGrid m (min p q) := by
  rcases le_total p q with h | h
  · rwa [min_eq_left h]
  · rwa [min_eq_right h]

theorem onGrid_max {m : ℕ} {p q : ℚ} (hp : onGrid m p) (hq : onGrid m q) :
    onGrid m (max p q) := by
  rcases le_total p q with h | h
  · rwa [max_eq_right h]
  · rwa [max_eq_left h]

theorem onGrid_intCast (m : ℕ) (hm : (m : ℚ) ≠ 0) (n : ℤ) : onGrid m (n : ℚ) :=
  ⟨n * m, by push_cast; field_simp⟩

theorem roundTo_eq_of_onGrid {m : ℕ} (hm : (m : ℚ) ≠ 0) {q : ℚ}
    (h : onGrid m q) : roundTo m q = q := by
  obtain ⟨n, rfl⟩ := h
  unfold roundTo
  rw [div_mul_cancel₀ _ hm, pyRound_intCast]

theorem round3_eq_of_onGrid {q : ℚ} (h : onGrid 1000 q) : round3 q = q :=
  roundTo_eq_of_onGrid (by norm_num) h

theorem round3_onGrid (q : ℚ) : onGrid 1000 (round3 q) := ⟨pyRound (q * 1000), rfl⟩

theorem round4_onGrid (q : ℚ) : onGrid 10000 (round4 q) := ⟨pyRound (q * 10000), rfl⟩

theorem round3_round3 (q : ℚ) : round3 (round3 q) = round3 q :=
  round3_eq_of_onGrid (round3_onGrid q)

theorem round4_round4 (q : ℚ) : round4 (round4 q) = round4 q :=
  roundTo_eq_of_onGrid (by norm_num) (round4_onGrid q)

theorem pyRound_bounds (x : ℚ) : ⌊x⌋ ≤ pyRound x ∧ pyRound x ≤ ⌊x⌋ + 1 := by
  unfold pyRound
  split
  · omega
  · split
    · omega
    · split <;> omega

theorem abs_pyRound_sub_le (x : ℚ) : |(pyRound x : ℚ) - x| ≤ 1/2 := by
  have hf := Int.floor_le x
  have hc := Int.lt_floor_add_one x
  unfold pyRound
  split
  · rw [abs_le]; constructor <;> push_cast <;> linarith
  · next hge =>
    push_neg at hge
    split
    · rw [abs_le]; constructor <;> push_cast <;> linarith
    · split <;> (rw [abs_le]; constructor <;> push_cast <;> linarith)

theorem abs_roundTo_sub_le (m : ℕ) (hm : 0 < (m : ℚ)) (x : ℚ) :
    |roundTo m x - x| ≤ 1 / (2 * m) := by
  have h := abs_pyRound_sub_le (x * m)
  unfold roundTo
  have hx : (pyRound (x * m) : ℚ) / m - x = ((pyRound (x * m) : ℚ) - x * m) / m := by
    field_simp
    ring
  rw [hx, abs_div, abs_of_pos hm]
  rw [div_le_div_iff₀ hm (by positivity)]
  calc |(pyRound (x * m) : ℚ) - x * m| * (2 * m)
      ≤ (1/2) * (2 * m) := by
        apply mul_le_mul_of_nonneg_right h (by positivity)
    _ = m := by ring
    _ = 1 * m := by ring

theorem abs_round3_sub_le (x : ℚ) : |round3 x - x| ≤ 1 / 2000 := by
  have h := abs_roundTo_sub_le 1000 (by norm_num) x
  norm_num at h
  simpa [round3] using h

theorem pyRound_le_pyRound {x y : ℚ} (h : x ≤ y) : pyRound x ≤ pyRound y := by
  rcases eq_or_lt_of_le h with rfl | hlt
  · exact le_refl _
  have hfl : ⌊x⌋ ≤ ⌊y⌋ := Int.floor_le_floor h
  rcases eq_or_lt_of_le hfl with hfe | hflt
  · -- same floor: compare fractional parts
    have hfr : x - (⌊y⌋ : ℚ) ≤ y - (⌊y⌋ : ℚ) := by linarith
    unfold pyRound
    rw [hfe]
    split_ifs <;> first | omega | linarith
  · -- floor strictly increases
    have h1 := (pyRound_bounds x).2
    have h2 := (pyRound_bounds y).1
    omega

theorem roundTo_le_roundTo (m : ℕ) (hm : 0 < (m : ℚ)) {x y : ℚ} (h : x ≤ y) :
    roundTo m x ≤ roundTo m y := by
  unfold roundTo
  have h2 : ((pyRound (x * m) : ℚ)) ≤ ((pyRound (y * m) : ℚ)) := by
    exact_mod_cast pyRound_le_pyRound (mul_le_mul_of_nonneg_right h (le_of_lt hm))
  exact (div_le_div_right hm).mpr h2

/-! ### Python string primitives over `List Char`

The program's texts use ASCII plus the Danish letters æ ø å (and their
upper-case forms), so lower-casing and the `\w` regex class are modelled
for exactly that character repertoire. -/

/-- Python `\s` for the whitespace characters that can occur here. -/
def isPySpace (c : Char) : Bool :=
  c = ' ' || c = '\t' || c = '\n' || c = '\x0d' || c = '\x0b' || c = '\x0c'

/-- Python `str.lower` on ASCII plus Æ Ø Å. -/
def pyToLower (c : Char) : Char :=
  if c = 'Æ' then 'æ' else if c = 'Ø' then 'ø' else if c = 'Å' then 'å'
  else c.toLower

/-- Python regex `\w` (word character) on ASCII plus æ ø å Æ Ø Å. -/
def isWordChar (c : Char) : Bool :=
  c.isAlphanum || c = '_' ||
    c = 'æ' || c = 'ø' || c = 'å' || c = 'Æ' || c = 'Ø' || c = 'Å'

/-- Helper for `splitWs`: accumulates the current token in reverse. -/
def splitWsAux : List Char → List Char → List (List Char)
  | [], acc => if acc = [] then [] else [acc.reverse]
  | c :: cs, acc =>
    if isPySpace c then
      if acc = [] then splitWsAux cs [] else acc.reverse :: splitWsAux cs []
    else splitWsAux cs (c :: acc)

/-- Python `str.split()` with no argument: maximal runs of
non-whitespace characters; empty pieces do not occur. -/
def splitWs (l : List Char) : List (List Char) := splitWsAux l []

/-- Helper for `collapseRuns`; the flag records whether the previous
character was whitespace. -/
def collapseRunsAux : List Char → Bool → List Char
  | [], _ => []
  | c :: cs, inWs =>
    if isPySpace c then
      if inWs then collapseRunsAux cs true else ' ' :: collapseRunsAux cs true
    else c :: collapseRunsAux cs false

/-- Python `re.sub(r"\s+", " ", l)`: every maximal whitespace run
becomes a single space. -/
def collapseRuns (l : List Char) : List Char := collapseRunsAux l false

/-- Python `str.strip()` (whitespace from both ends). -/
def pyStripWs (l : List Char) : List Char :=
  ((l.dropWhile isPySpace).reverse.dropWhile isPySpace).reverse

/-- Python `str.strip(chars)` for an explicit character set. -/
def pyStripChars (s : List Char) (l : List Char) : List Char :=
  ((l.dropWhile s.contains).reverse.dropWhile s.contains).reverse

/-- Python `" ".join(tokens)`. -/
def joinTokens : List (List Char) → List Char
  | [] => []
  | [t] => t
  | t :: rest => t ++ ' ' :: joinTokens rest

/-- String membership test used to model Python's `keyword in text`:
`pat` occurs contiguously somewhere in `l`. -/
def containsSub (pat l : List Char) : Bool :=
  (List.range (l.length + 1)).any (fun i => pat.isPrefixOf (l.drop i))

/-! ### Data model (`models.py`) -/

/-- `models.Segment`: engine output in chunk-local (or, after
globalization, job-global) time. -/
structure Segment where
  start_sec : ℚ
  end_sec : ℚ
  speaker : List Char
  text : List Char
  confidence : Option ℚ
deriving DecidableEq

/-- A stored utterance dict `{startSec, endSec, speaker, text,
confidence}` in job-global time. -/
structure Utterance where
  startSec : ℚ
  endSec : ℚ
  speaker : List Char
  text : List Char
  confidence : Option ℚ
deriving DecidableEq

/-- `models.ChunkPlan` (the rendered path and hash are not part of the
timing claims). -/
structure ChunkPlanM where
  idx : ℕ
  start_sec : ℚ
  end_sec : ℚ
deriving DecidableEq

/-! ### `merge.py` -/

def BACKCHANNELS : List (List Char) :=
  ["ja", "jo", "nej", "ok", "okay", "nå", "nåh", "mhm", "mm", "mmm", "klart",
   "fedt", "præcis", "super", "tak", "det gør jeg", "det vil jeg gøre",
   "ja okay", "ja ja", "nej nej"].map String.data

def FILLER_TOKENS : List (List Char) :=
  ["øh", "øhm", "øhh", "eh", "hmm"].map String.data

def TECHNICAL_META_KEYWORDS : List (List Char) :=
  ["kan du høre", "hører mig", "høre mig", "lyden", "mikrofon", "kamera",
   "dele skærm", "del skærm", "skærm", "link", "chat", "chatten", "nettet",
   "internet", "forbindelse", "hakker", "langsom", "opkald", "teams", "zoom",
   "kan ikke åbne", "kan ikke se", "driller"].map String.data

def TECHNICAL_META_STRONG_KEYWORDS : List (List Char) :=
  ["kan du prøve at gentage", "kan du gentage", "kan du se min skærm",
   "kan du se den nu", "er det mig igen", "løber tør for strøm",
   "deler skærm"].map String.data

def SHORT_BACKCHANNEL_MAX_WORDS : ℕ := 2
def TECHNICAL_META_MAX_WORDS : ℕ := 10
def TECHNICAL_META_STRONG_MAX_WORDS : ℕ := 20
def INTERRUPTION_MAX_WORDS : ℕ := 3
def INTERRUPTION_MAX_GAP_SEC : ℚ := 8
def SPEAKER_RUN_MERGE_MAX_GAP_SEC : ℚ := 10

/-- `merge._normalize`: lower-case, `[^\w\s] → " "`, collapse whitespace
runs, strip. -/
def pyNormalize (t : List Char) : List Char :=
  pyStripWs (collapseRuns
    ((t.map pyToLower).map (fun c => if isWordChar c || isPySpace c then c else ' ')))

/-- `merge._word_count`: `len(text.split())`, 0 on the empty string. -/
def wordCount (t : List Char) : ℕ := if t = [] then 0 else (splitWs t).length

/-- The `re.sub(r"[^\w]", "", token.lower())` word extraction inside
`merge._strip_fillers`. -/
def wordOf (tok : List Char) : List Char := (tok.map pyToLower).filter isWordChar

/-- `merge._strip_fillers`: drop tokens whose word is a filler, re-join
with single spaces, strip `" ,.-"` from the ends. -/
def stripFillers (t : List Char) : List Char :=
  pyStripChars " ,.-".data
    (collapseRuns (joinTokens
      ((splitWs t).filter (fun tok => !(FILLER_TOKENS.contains (wordOf tok))))))

/-- `merge._is_backchannel`. -/
def isBackchannel (t : List Char) : Bool :=
  let normalized := pyNormalize t
  if normalized = [] then true
  else decide (wordCount normalized ≤ SHORT_BACKCHANNEL_MAX_WORDS) &&
    BACKCHANNELS.contains normalized

/-- `merge._is_technical_meta`. -/
def isTechnicalMeta (t : List Char) : Bool :=
  let normalized := pyNormalize t
  if normalized = [] then true
  else
    let wc := wordCount normalized
    if (TECHNICAL_META_KEYWORDS.any fun k => containsSub k normalized) &&
        decide (wc ≤ TECHNICAL_META_MAX_WORDS) then true
    else if (TECHNICAL_META_STRONG_KEYWORDS.any fun k => containsSub k normalized) &&
        decide (wc ≤ TECHNICAL_META_STRONG_MAX_WORDS) then true
    else false

/-- The sort key `(start_sec, end_sec)` used throughout `merge.py`,
as a reflexive total order for a stable sort. -/
def segLE (a b : Segment) : Prop :=
  a.start_sec < b.start_sec ∨ (a.start_sec = b.start_sec ∧ a.end_sec ≤ b.end_sec)

instance : DecidableRel segLE := fun a b => by unfold segLE; infer_instance

/-- Python `sorted(segments, key=(start_sec, end_sec))`; any stable sort
by the same key produces the same list, so insertion sort is an exact
model of Timsort here. -/
def pySortSegments (l : List Segment) : List Segment := List.insertionSort segLE l

/-- Python `a or b` on optional floats (both `None` and `0.0` are
falsy). -/
def pyOrConf (a b : Option ℚ) : Option ℚ :=
  match a with
  | some x => if x = 0 then b else some x
  | none => b

/-- Python `previous.confidence or 0.0`. -/
def confGetD0 (a : Option ℚ) : ℚ := a.getD 0

/-- One iteration of the `dedupe_segments` loop.  `merged` holds
Python's `merged` list in reverse, so its head is `merged[-1]`. -/
def dedupeStep (merged : List Segment) (segment : Segment) : List Segment :=
  if pyStripWs segment.text = [] then merged
  else match merged with
  | [] => [segment]
  | previous :: rest =>
    if pyNormalize previous.text = pyNormalize segment.text ∧
        segment.start_sec ≤ previous.end_sec + 1/4 then
      { previous with
        end_sec := max previous.end_sec segment.end_sec,
        confidence := match segment.confidence with
          | some c => some (max (confGetD0 previous.confidence) c)
          | none => previous.confidence } :: rest
    else if segment.start_sec ≤ previous.end_sec + 1/4 ∧
        segment.speaker = previous.speaker ∧
        pyNormalize previous.text ≠ [] ∧ pyNormalize segment.text ≠ [] then
      if (pyNormalize previous.text).isPrefixOf (pyNormalize segment.text) then
        { previous with
          text := segment.text,
          end_sec := max previous.end_sec segment.end_sec,
          confidence := pyOrConf segment.confidence previous.confidence } :: rest
      else if (pyNormalize segment.text).isPrefixOf (pyNormalize previous.text) then
        previous :: rest
      else segment :: previous :: rest
    else segment :: previous :: rest

/-- `merge.dedupe_segments`. -/
def dedupeSegments (segments : List Segment) : List Segment :=
  ((pySortSegments segments).foldl dedupeStep []).reverse

/-- The first pass of `filter_style_noise`: strip fillers, drop empty,
backchannel and technical-meta segments. -/
def filterNoisePass (segments : List Segment) : List Segment :=
  (pySortSegments segments).filterMap (fun segment =>
    let cleaned := stripFillers (pyStripWs segment.text)
    if cleaned = [] then none
    else if isBackchannel cleaned then none
    else if isTechnicalMeta cleaned then none
    else some { start_sec := segment.start_sec, end_sec := segment.end_sec,
                speaker := segment.speaker, text := cleaned,
                confidence := segment.confidence })

/-- The interruption-backchannel condition of `filter_style_noise`. -/
def interruptionCond (previous current following : Segment) : Prop :=
  wordCount (pyNormalize current.text) ≤ INTERRUPTION_MAX_WORDS ∧
  isBackchannel current.text = true ∧
  previous.speaker = following.speaker ∧
  previous.speaker ≠ current.speaker ∧
  current.start_sec - previous.end_sec ≤ INTERRUPTION_MAX_GAP_SEC ∧
  following.start_sec - current.end_sec ≤ INTERRUPTION_MAX_GAP_SEC

instance (p c f : Segment) : Decidable (interruptionCond p c f) := by
  unfold interruptionCond; infer_instance

/-- The `while i < len(compacted) - 1` walk: popping the current element
keeps the index in place (same `previous`, new neighbours). -/
def dropInterruptionsGo (previous : Segment) : List Segment → List Segment
  | current :: following :: rest =>
    if interruptionCond previous current following then
      dropInterruptionsGo previous (following :: rest)
    else current :: dropInterruptionsGo current (following :: rest)
  | l => l

/-- The interruption-removal pass (index starts at 1, so the first
element is always kept). -/
def dropInterruptions : List Segment → List Segment
  | [] => []
  | a :: rest => a :: dropInterruptionsGo a rest

/-- One iteration of the same-speaker run merge; `acc` is Python's
`merged_runs` in reverse. -/
def mergeRunsStep (acc : List Segment) (segment : Segment) : List Segment :=
  match acc with
  | [] => [segment]
  | previous :: rest =>
    if previous.speaker = segment.speaker ∧
        segment.start_sec - previous.end_sec ≤ SPEAKER_RUN_MERGE_MAX_GAP_SEC then
      { previous with
        text := pyStripWs (previous.text ++ ' ' :: segment.text),
        end_sec := max previous.end_sec segment.end_sec,
        confidence := match segment.confidence with
          | some c => some (max (confGetD0 previous.confidence) c)
          | none => previous.confidence } :: rest
    else segment :: previous :: rest

def mergeRuns (l : List Segment) : List Segment := (l.foldl mergeRunsStep []).reverse

/-- `merge.filter_style_noise` (with fewer than 3 survivors both the
interruption removal and the run merge are skipped). -/
def filterStyleNoise (segments : List Segment) : List Segment :=
  let filtered := filterNoisePass segments
  if filtered.length < 3 then filtered
  else mergeRuns (dropInterruptions filtered)

/-- `merge._SpeakerStats`. -/
structure SpeakerStats where
  first_start : ℚ
  utterance_count : ℕ
  question_count : ℕ
  total_words : ℕ
deriving DecidableEq, Inhabited

/-- `segment.speaker or "speaker_0"` (the empty string is falsy). -/
def defaultSpeaker (s : List Char) : List Char :=
  if s = [] then "speaker_0".data else s

/-- The per-segment stats update of `_infer_interviewer_speakers`. -/
def bumpStats (st : SpeakerStats) (segment : Segment) : SpeakerStats :=
  { st with
    utterance_count := st.utterance_count + 1,
    total_words := st.total_words + wordCount (pyNormalize segment.text),
    question_count :=
      if '?' ∈ segment.text then st.question_count + 1 else st.question_count }

/-- Update the insertion-ordered association list that models
`stats_by_speaker` together with `speaker_order`. -/
def updateAssoc : List (List Char × SpeakerStats) → List Char → Segment →
    List (List Char × SpeakerStats)
  | [], key, segment => [(key, bumpStats ⟨segment.start_sec, 0, 0, 0⟩ segment)]
  | (k, st) :: rest, key, segment =>
    if k = key then (k, bumpStats st segment) :: rest
    else (k, st) :: updateAssoc rest key segment

def collectStats (ordered : List Segment) : List (List Char × SpeakerStats) :=
  ordered.foldl (fun acc segment =>
    updateAssoc acc (defaultSpeaker segment.speaker) segment) []

/-- `merge._expected_interviewer_slots`. -/
def expectedInterviewerSlots (unique_speakers : ℕ)
    (interviewer_count participant_count : ℤ) : ℤ :=
  if unique_speakers ≤ 1 then 1
  else
    let ic := max 1 interviewer_count
    let pc := max 1 participant_count
    let total_expected := max 1 (ic + pc)
    let scaled := pyRound (((unique_speakers : ℚ) * (ic : ℚ)) / (total_expected : ℚ))
    let slots := max 1 scaled
    let slots2 := min slots (max 1 ((unique_speakers : ℤ) - 1))
    max 1 slots2

/-- The sort key `(-score, first_start)` on `(speaker, score,
first_start)` triples, as a reflexive total order. -/
def scoredLE (a b : List Char × ℚ × ℚ) : Prop :=
  b.2.1 < a.2.1 ∨ (a.2.1 = b.2.1 ∧ a.2.2 ≤ b.2.2)

instance : DecidableRel scoredLE := fun a b => by unfold scoredLE; infer_instance

/-- The per-speaker score triple `(speaker_id, score, first_start)` of
`_infer_interviewer_speakers`. -/
def scoreOf (p : List Char × SpeakerStats) : List Char × ℚ × ℚ :=
  let utterances : ℕ := max 1 p.2.utterance_count
  let avg_words : ℚ := (p.2.total_words : ℚ) / (utterances : ℚ)
  let question_density : ℚ := (p.2.question_count : ℚ) / (utterances : ℚ)
  let start_bonus : ℚ := max 0 (1 - (min p.2.first_start 120) / 120)
  let brevity_bonus : ℚ := 1 / max 1 avg_words
  (p.1, question_density * 3 + start_bonus + brevity_bonus * 2, p.2.first_start)

/-- `merge._infer_interviewer_speakers`; the returned Python set is
modelled as the duplicate-free list of picked ids. -/
def inferInterviewerSpeakers (ordered : List Segment)
    (interviewer_count participant_count : ℤ) : List (List Char) :=
  if ordered = [] then ["speaker_0".data]
  else
    let stats := collectStats ordered
    if stats.length ≤ 1 then [(stats.headD ("speaker_0".data, ⟨0, 0, 0, 0⟩)).1]
    else
      let slots := expectedInterviewerSlots stats.length interviewer_count participant_count
      let picked := ((List.insertionSort scoredLE (stats.map scoreOf)).take slots.toNat).map
        Prod.fst
      if picked = [] then [(stats.headD ("speaker_0".data, ⟨0, 0, 0, 0⟩)).1] else picked

/-- `merge.map_to_interviewer_participant`. -/
def mapToInterviewerParticipant (segments : List Segment)
    (interviewer_count participant_count : ℤ) : List Utterance :=
  let ordered := pySortSegments segments
  let interviewer_speakers :=
    inferInterviewerSpeakers ordered interviewer_count participant_count
  ordered.map (fun segment =>
    let raw_speaker := defaultSpeaker segment.speaker
    { startSec := round3 segment.start_sec,
      endSec := round3 segment.end_sec,
      speaker := if interviewer_speakers.contains raw_speaker
                 then "I".data else "D".data,
      text := pyStripWs segment.text,
      confidence := segment.confidence.map round4 })

/-- `merge.merge_and_label`. -/
def mergeAndLabel (segments : List Segment)
    (interviewer_count participant_count : ℤ) : List Utterance :=
  mapToInterviewerParticipant (filterStyleNoise (dedupeSegments segments))
    interviewer_count participant_count

/-! ### `worker.py` -/

/-- Python `x or 0` on a float (0.0 is falsy, so this is the identity on
numbers and only replaces a missing value). -/
def pyOrZero (x : Option ℚ) : ℚ := x.getD 0

/-- Python `x or y` on two floats: `x` unless it is falsy (`0.0`), in
which case `y`. -/
def pyOr (x y : ℚ) : ℚ := if x = 0 then y else x

/-- `worker._coerce_segments`: stored utterance dicts back to `Segment`s.
Blank texts are dropped; `start = float(raw.get("startSec") or 0)` and
`end = float(raw.get("endSec") or start)` use Python truthiness, so a
stored `endSec` of `0.0` falls back to `start`; the stored end is
`max(start, end)`; an empty speaker defaults to `"speaker_0"`. -/
def coerceSegments (raw_segments : List Utterance) : List Segment :=
  raw_segments.filterMap (fun raw =>
    let text := pyStripWs raw.text
    if text = [] then none
    else
      let start := pyOr raw.startSec 0
      some { start_sec := start,
             end_sec := max start (pyOr raw.endSec start),
             speaker := defaultSpeaker raw.speaker,
             text := text,
             confidence := raw.confidence })

/-- The globalization step of `worker.transcribe_job` (lines 290-300):
shift each engine segment by the chunk's start, rounding to 3
decimals. -/
def globalizeSegments (chunk_start : ℚ) (segments : List Segment) : List Utterance :=
  segments.map (fun segment =>
    { startSec := round3 (chunk_start + segment.start_sec),
      endSec := round3 (chunk_start + segment.end_sec),
      speaker := segment.speaker,
      text := segment.text,
      confidence := segment.confidence })

/-! #### Progress events of a driver run

The driver emits line-delimited events; only the `progress` and `paused`
events carry a `progress_payload` (percent, stage, chunksDone), so the
event-trace model below records exactly those.  The `error` and
`result` events carry no percent or stage and are omitted. -/

inductive Stage where
  | preprocess
  | transcribe
  | merge
deriving DecidableEq

inductive EvType where
  | progress
  | paused
deriving DecidableEq

/-- Which `message` the payload carries (the Danish message strings are
abstracted to their kind). -/
inductive MsgKind where
  | preparing
  | fallbackNotice
  | chunkDone
  | pausedLowConf
  | merging
deriving DecidableEq

structure Ev where
  etype : EvType
  stage : Stage
  percent : ℚ
  chunksDone : ℕ
  kind : MsgKind
deriving DecidableEq

/-- `worker.progress_payload`: percent is clamped to `[0, 100]` and
rounded to 2 decimals. -/
def pct (p : ℚ) : ℚ := round2 (max 0 (min 100 p))

/-- Outcome of one pending chunk in a run (which engine succeeded, or
how it failed). -/
inductive ChunkOutcome where
  | remoteOk
  | fallbackOk
  | lowConf
  | bothFail
deriving DecidableEq

/-- One chunk row at the start of the run: either already `done`
(skipped) or pending with a fixed outcome. -/
structure RunChunk where
  preDone : Bool
  outcome : ChunkOutcome
deriving DecidableEq

/-- The per-chunk loop of `worker.transcribe_job`, recording the
emitted payload events.  `total` is `chunks_total`, `done` is
`done_chunks`. -/
def driverLoop (total : ℕ) : List RunChunk → ℕ → List Ev
  | [], done =>
    [⟨.progress, .merge, pct 94, done, .merging⟩]
  | c :: rest, done =>
    if c.preDone then driverLoop total rest done
    else
      match c.outcome with
      | .remoteOk =>
        ⟨.progress, .transcribe, pct (10 + (((done + 1 : ℕ) : ℚ) / (max total 1 : ℕ)) * 80),
          done + 1, .chunkDone⟩ :: driverLoop total rest (done + 1)
      | .fallbackOk =>
        ⟨.progress, .transcribe, pct (10 + ((done : ℚ) / (max total 1 : ℕ)) * 70),
          done, .fallbackNotice⟩ ::
        ⟨.progress, .transcribe, pct (10 + (((done + 1 : ℕ) : ℚ) / (max total 1 : ℕ)) * 80),
          done + 1, .chunkDone⟩ :: driverLoop total rest (done + 1)
      | .lowConf =>
        [⟨.progress, .transcribe, pct (10 + ((done : ℚ) / (max total 1 : ℕ)) * 70),
           done, .fallbackNotice⟩,
         ⟨.paused, .transcribe, pct (10 + ((done : ℚ) / (max total 1 : ℕ)) * 80),
           done, .pausedLowConf⟩]
      | .bothFail =>
        [⟨.progress, .transcribe, pct (10 + ((done : ℚ) / (max total 1 : ℕ)) * 70),
           done, .fallbackNotice⟩]

/-- The payload-event trace of one `transcribe_job` run: the
preprocessing event at 3 percent, then the chunk loop starting from the
number of already-done chunks. -/
def driverEvents (chunks : List RunChunk) : List Ev :=
  ⟨.progress, .preprocess, pct 3, 0, .preparing⟩ ::
    driverLoop chunks.length chunks (chunks.countP (·.preDone))

/-! ### `storage.py` -/

/-- A `jobs` row (fields relevant to status, error and transcript;
timestamps are not modelled). -/
structure Job where
  status : List Char
  error_message : Option (List Char)
  transcript : Option (List Utterance)
  chunks_done : ℕ
  chunks_total : ℕ
deriving DecidableEq

/-- `storage.update_job_status`: optional fields are written only when
given; in particular `error_message` is left untouched when the caller
passes no `error_message`. -/
def updateJobStatus (j : Job) (status : List Char)
    (chunks_done : Option ℕ) (chunks_total : Option ℕ)
    (error_message : Option (List Char)) : Job :=
  { j with
    status := status,
    chunks_done := chunks_done.getD j.chunks_done,
    chunks_total := chunks_total.getD j.chunks_total,
    error_message := match error_message with
      | some e => some e
      | none => j.error_message }

/-- `storage.set_final_transcript`: writes the transcript, the status
and `error_message = NULL`. -/
def setFinalTranscript (j : Job) (transcript : List Utterance)
    (status : List Char) : Job :=
  { j with
    transcript := some transcript,
    status := status,
    error_message := none }

/-- `storage.get_transcript`: missing transcript yields `[]`. -/
def getTranscript (j : Job) : List Utterance := j.transcript.getD []

/-- The per-utterance speaker flip of `storage.toggle_swap_roles`. -/
def swapSpeaker (u : Utterance) : Utterance :=
  if u.speaker = "I".data then { u with speaker := "D".data }
  else if u.speaker = "D".data then { u with speaker := "I".data }
  else u

/-- `storage.toggle_swap_roles`: read, flip, write back with status
`ready`; returns the swapped transcript and the new job row. -/
def toggleSwapRoles (j : Job) : List Utterance × Job :=
  let swapped := (getTranscript j).map swapSpeaker
  (swapped, setFinalTranscript j swapped "ready".data)

/-! ### `editing.py` -/

/-- Render a natural number in decimal, for the Danish error
messages. -/
def natChars (n : ℕ) : List Char := (Nat.repr n).data

/-- The line-boundary characters of Python `str.splitlines`: `\n`,
`\r`, `\v`, `\f`, the file/group/record separators, NEL and the
Unicode line and paragraph separators. -/
def isLineBoundChar (c : Char) : Bool :=
  c = '\n' ∨ c = '\x0d' ∨ c = '\x0b' ∨ c = '\x0c' ∨ c = '\x1c' ∨
    c = '\x1d' ∨ c = '\x1e' ∨ c = '\x85' ∨ c = '\u2028' ∨ c = '\u2029'

/-- The accumulator loop of `str.splitlines`: cut at every boundary
character, count `\r\n` as a single boundary, and emit no empty line
after a trailing boundary. -/
def splitlinesGo : List Char → List Char → List (List Char)
  | [], acc => if acc = [] then [] else [acc.reverse]
  | '\x0d' :: '\n' :: rest, acc => acc.reverse :: splitlinesGo rest []
  | c :: rest, acc =>
    if isLineBoundChar c then acc.reverse :: splitlinesGo rest []
    else splitlinesGo rest (c :: acc)

/-- Python `str.splitlines`. -/
def pySplitlines (text : List Char) : List (List Char) := splitlinesGo text []

/-- The regex `^\s*([IiDd])\s*:\s*(.*)$` of `editing.SPEAKER_PREFIX`:
returns the speaker letter and group 2. -/
def matchSpeakerLine (line : List Char) : Option (Char × List Char) :=
  match line.dropWhile isPySpace with
  | [] => none
  | c :: rest =>
    if c = 'I' ∨ c = 'i' ∨ c = 'D' ∨ c = 'd' then
      match rest.dropWhile isPySpace with
      | ':' :: r => some (c, r.dropWhile isPySpace)
      | _ => none
    else none

def errBlankLine (n : ℕ) : List Char :=
  "Linje ".data ++ natChars n ++ " er tom. Tomme linjer er ikke tilladt; brug formatet 'I: ...' eller 'D: ...' på hver linje.".data

def errNoSpeaker (n : ℕ) : List Char :=
  "Linje ".data ++ natChars n ++ " mangler taler-prefix. Hver ikke-tom linje skal starte med 'I:' eller 'D:'.".data

def errEmptyBody (n : ℕ) : List Char :=
  "Linje ".data ++ natChars n ++ " er tom efter taler-prefix. Brug formatet 'I: ...' eller 'D: ...'.".data

def errNoUtterances : List Char :=
  "Ingen gyldige ytringer fundet. Brug formatet 'I: ...' eller 'D: ...'.".data

/-- Python `str.upper` on the speaker letter. -/
def pyUpper (c : Char) : Char := c.toUpper

/-- The line loop of `editing.parse_editor_text`; `index` is the
0-based enumeration index, the reported line number is `index + 1`. -/
def parseLines : List (List Char) → ℕ → Except (List Char) (List (Char × List Char))
  | [], _ => .ok []
  | raw_line :: rest, index =>
    let line := raw_line.filter (· ≠ '\x0d')
    let stripped := pyStripWs line
    if stripped = [] then .error (errBlankLine (index + 1))
    else
      match matchSpeakerLine line with
      | none => .error (errNoSpeaker (index + 1))
      | some (c, g2) =>
        let body := pyStripWs g2
        if body = [] then .error (errEmptyBody (index + 1))
        else (parseLines rest (index + 1)).map (fun l => (pyUpper c, body) :: l)

def SEGMENT_START_STEP : ℚ := 3
def SEGMENT_DURATION : ℚ := 1

/-- The conversion loop of `parse_editor_text` (`enumerate` over the
collected utterances, 0-based `idx`). -/
def convertUtterances (confs : List (Option ℚ)) : ℕ → List (Char × List Char) → List Utterance
  | _, [] => []
  | idx, (speaker, body) :: rest =>
    { startSec := round3 ((idx : ℚ) * SEGMENT_START_STEP),
      endSec := round3 ((idx : ℚ) * SEGMENT_START_STEP + SEGMENT_DURATION),
      speaker := [speaker],
      text := body,
      confidence := (confs.getD idx none) } :: convertUtterances confs (idx + 1) rest

/-- `editing.parse_editor_text`. -/
def parseEditorText (text : List Char) (fallback_transcript : List Utterance) :
    Except (List Char) (List Utterance) :=
  match parseLines (pySplitlines text) 0 with
  | .error e => .error e
  | .ok utterances =>
    if utterances = [] then .error errNoUtterances
    else .ok (convertUtterances (fallback_transcript.map (·.confidence)) 0 utterances)

/-! ### `openai_engine.py` retry loop -/

/-- The failure message of `transcribe_chunk_openai` after exhausting
its retries (the Danish f-string, split at the interesting
boundaries).  The source literal is double-encoded: its bytes are
`f o r s C3 83 C2 B8 g`, which is the two-character sequence `Ã¸`
where `ø` was evidently intended, so the message the program raises
spells the word as `forsÃ¸g`. -/
def remoteFailMsg (max_retries : ℕ) (last_error : List Char) : List Char :=
  "OpenAI transskription fejlede ".data ++
    ("efter ".data ++ natChars max_retries ++ " forsÃ¸g".data) ++
    ": ".data ++ last_error

/-- The `for attempt in range(1, max_retries + 1)` retry loop, with the
two remote calls of one attempt abstracted to `attempt : ℕ → Except`:
`remaining` counts the attempts still allowed, `i` is the 1-based
attempt number, so `remaining = max_retries - i + 1`. -/
def retryGo (attempt : ℕ → Except (List Char) (List Segment × Option ℚ))
    (max_retries : ℕ) : ℕ → ℕ → Except (List Char) (List Segment × Option ℚ)
  | 0, _ => .error (remoteFailMsg max_retries "None".data)
  | remaining + 1, i =>
    match attempt i with
    | .ok v => .ok v
    | .error e =>
      if remaining = 0 then .error (remoteFailMsg max_retries e)
      else retryGo attempt max_retries remaining (i + 1)

/-- `transcribe_chunk_openai` reduced to its retry behaviour: run the
attempts in order, return the first success, and after `max_retries`
failures raise `RemoteFailed` with the message above.  With
`max_retries = 0` the Python loop body never runs and `last_error` is
`None`. -/
def transcribeChunkRemote (attempt : ℕ → Except (List Char) (List Segment × Option ℚ))
    (max_retries : ℕ) : Except (List Char) (List Segment × Option ℚ) :=
  retryGo attempt max_retries max_retries 1

/-! ### `audio.py` chunk planner

The `while start < duration` loop advances `start` by
`step = max(1.0, chunk_duration_sec - overlap_sec) ≥ 1` each iteration,
so `⌈duration⌉ + 1` iterations always suffice; the loop is written with
that fuel to keep it structurally recursive.  Rendering and hashing are
external side effects and are not part of the timing claims. -/

/-- The planning loop of `audio.create_chunks`: while `start <
duration`, plan `[start, min(duration, start + chunk_duration))`
rounded to 3 decimals, then `start += step`. -/
def createChunksLoop (duration chunk_duration step : ℚ) :
    ℕ → ℚ → ℕ → List ChunkPlanM
  | 0, _, _ => []
  | fuel + 1, start, idx =>
    if start < duration then
      { idx := idx,
        start_sec := round3 start,
        end_sec := round3 (min duration (start + chunk_duration)) } ::
        createChunksLoop duration chunk_duration step fuel (start + step) (idx + 1)
    else []

/-- `audio.create_chunks` (planning part): the probed `duration` is a
parameter, chunking parameters as in the source. -/
def createChunks (duration chunk_duration overlap : ℚ) : List ChunkPlanM :=
  createChunksLoop duration chunk_duration (max 1 (chunk_duration - overlap))
    (⌈duration⌉.toNat + 1) 0 0

/-- `create_chunks` at its default parameters
`chunk_duration_sec = 240.0`, `overlap_sec = 1.5`, as called by the
worker. -/
def createChunksDefault (duration : ℚ) : List ChunkPlanM :=
  createChunks duration 240 (3/2)

/-! ### Claim C1: chunk-plan invariants -/

theorem createChunksLoop_nil {d cd st : ℚ} {s : ℚ} {i : ℕ}
    (h : ¬ s < d) : ∀ fuel, createChunksLoop d cd st fuel s i = [] := by
  intro fuel
  cases fuel with
  | zero => rfl
  | succ n => simp [createChunksLoop, h]

theorem createChunksLoop_head {d cd st : ℚ} {fuel : ℕ} {s : ℚ} {i : ℕ} {c : ChunkPlanM}
    (h : (createChunksLoop d cd st fuel s i).head? = some c) :
    c.start_sec = round3 s := by
  cases fuel with
  | zero => simp [createChunksLoop] at h
  | succ n =>
    by_cases hs : s < d
    · simp [createChunksLoop, hs] at h
      simp [← h]
    · simp [createChunksLoop, hs] at h

theorem createChunksLoop_bounds {d : ℚ} (hd : onGrid 1000 d) :
    ∀ (fuel : ℕ) (s : ℚ) (i : ℕ), onGrid 1000 s →
      ∀ c ∈ createChunksLoop d 240 (477/2) fuel s i,
        c.end_sec ≤ d ∧ c.start_sec < c.end_sec := by
  intro fuel
  induction fuel with
  | zero => intro s i _ c hc; simp [createChunksLoop] at hc
  | succ n ih =>
    intro s i hs c hc
    by_cases hsd : s < d
    · simp only [createChunksLoop, if_pos hsd, List.mem_cons] at hc
      rcases hc with rfl | hc
      · have hgrid240 : onGrid 1000 (s + 240) :=
          onGrid_add hs ⟨240000, by norm_num⟩
        have hmin : onGrid 1000 (min d (s + 240)) := onGrid_min hd hgrid240
        constructor
        · simp only [round3_eq_of_onGrid hmin]
          exact min_le_left _ _
        · simp only [round3_eq_of_onGrid hmin, round3_eq_of_onGrid hs]
          exact lt_min hsd (by linarith)
      · exact ih (s + 477/2) (i + 1) (onGrid_add hs ⟨238500, by norm_num⟩) c hc
    · rw [createChunksLoop_nil hsd] at hc
      simp at hc

theorem createChunksLoop_chain {d : ℚ} :
    ∀ (fuel : ℕ) (s : ℚ) (i : ℕ), onGrid 1000 s →
      List.Chain' (fun a b => b.start_sec - a.start_sec = 477/2)
        (createChunksLoop d 240 (477/2) fuel s i) := by
  intro fuel
  induction fuel with
  | zero => intro s i _; simp [createChunksLoop]
  | succ n ih =>
    intro s i hs
    by_cases hsd : s < d
    · simp only [createChunksLoop, if_pos hsd]
      apply List.Chain'.cons'
      · exact ih (s + 477/2) (i + 1) (onGrid_add hs ⟨238500, by norm_num⟩)
      · intro b hb
        have hh : (createChunksLoop d 240 (477/2) n (s + 477/2) (i + 1)).head? = some b :=
          Option.mem_def.mp hb
        have hbs : b.start_sec = round3 (s + 477/2) := createChunksLoop_head hh
        have hgrid : onGrid 1000 (s + 477/2) := onGrid_add hs ⟨238500, by norm_num⟩
        simp only [hbs, round3_eq_of_onGrid hgrid, round3_eq_of_onGrid hs]
        ring
    · rw [createChunksLoop_nil hsd]
      exact List.chain'_nil

theorem createChunksLoop_last {d : ℚ} (hd : onGrid 1000 d) :
    ∀ (fuel : ℕ) (s : ℚ) (i : ℕ), s < d → d ≤ s + fuel * (477/2) →
      ((createChunksLoop d 240 (477/2) fuel s i).getLast?).map
        (fun c => c.end_sec) = some d := by
  intro fuel
  induction fuel with
  | zero =>
    intro s i hsd hfuel
    exfalso
    push_cast at hfuel
    linarith
  | succ n ih =>
    intro s i hsd hfuel
    simp only [createChunksLoop, if_pos hsd]
    by_cases h2 : s + 477/2 < d
    · have hfuel' : d ≤ (s + 477/2) + n * (477/2) := by push_cast at hfuel ⊢; linarith
      have htail := ih (s + 477/2) (i + 1) h2 hfuel'
      rcases htl : createChunksLoop d 240 (477/2) n (s + 477/2) (i + 1) with _ | ⟨x, xs⟩
      · rw [htl] at htail
        simp at htail
      · rw [htl] at htail
        rw [List.getLast?_cons_cons]
        exact htail
    · rw [createChunksLoop_nil h2]
      simp only [List.getLast?_singleton, Option.map_some']
      have hle : d ≤ s + 240 := by
        push_cast at hfuel
        linarith [not_lt.mp h2]
      rw [min_eq_left hle, round3_eq_of_onGrid hd]

/-- C1, amended: for a probed duration that is positive and exactly
representable at 3 decimals (the stored times are rounded to 3
decimals, so off-grid durations violate the claim as stated), every
planned chunk ends no later than the duration and starts strictly
before it ends, the last chunk ends exactly at the duration, and
consecutive chunks start exactly `step = max(1.0, 240.0 − 1.5)` apart. -/
theorem c1_chunk_invariants (d : ℚ) (hpos : 0 < d) (hgrid : onGrid 1000 d) :
    (∀ c ∈ createChunksDefault d, c.end_sec ≤ d ∧ c.start_sec < c.end_sec) ∧
    ((createChunksDefault d).getLast?).map (fun c => c.end_sec) = some d ∧
    List.Chain' (fun a b => b.start_sec - a.start_sec = max 1 (240 - 3/2))
      (createChunksDefault d) := by
  have hstep : (max 1 (240 - 3/2) : ℚ) = 477/2 := by norm_num
  have hunfold : createChunksDefault d =
      createChunksLoop d 240 (477/2) (⌈d⌉.toNat + 1) 0 0 := by
    unfold createChunksDefault createChunks
    rw [hstep]
  refine ⟨?_, ?_, ?_⟩
  · rw [hunfold]
    exact createChunksLoop_bounds hgrid _ 0 0 ⟨0, by norm_num⟩
  · rw [hunfold]
    apply createChunksLoop_last hgrid _ 0 0 hpos
    have hceil : d ≤ (⌈d⌉.toNat : ℚ) := by
      have h1 : d ≤ (⌈d⌉ : ℚ) := Int.le_ceil d
      have h2 : (0 : ℤ) ≤ ⌈d⌉ := by
        by_contra hneg
        push_neg at hneg
        have : (⌈d⌉ : ℚ) < 0 := by exact_mod_cast hneg
        linarith
      have h3 : ((⌈d⌉.toNat : ℚ)) = ((⌈d⌉ : ℚ)) := by
        exact_mod_cast congrArg (Int.cast : ℤ → ℚ) (Int.toNat_of_nonneg h2)
      rw [h3]
      exact h1
    have hn : (0 : ℚ) ≤ (⌈d⌉.toNat : ℚ) := by positivity
    push_cast
    nlinarith
  · rw [hunfold, hstep]
    exact createChunksLoop_chain _ 0 0 ⟨0, by norm_num⟩

/-- Witness for C1 at duration 240 s: two chunks
`[0, 240)`, `[238.5, 240)`. -/
theorem c1_chunk_invariants_witness :
    (0 : ℚ) < 240 ∧ onGrid 1000 (240 : ℚ) ∧
    ((∀ c ∈ createChunksDefault 240, c.end_sec ≤ 240 ∧ c.start_sec < c.end_sec) ∧
     ((createChunksDefault 240).getLast?).map (fun c => c.end_sec) = some 240 ∧
     List.Chain' (fun a b => b.start_sec - a.start_sec = max 1 (240 - 3/2))
       (createChunksDefault 240)) :=
  ⟨by norm_num, ⟨240000, by norm_num⟩,
    c1_chunk_invariants 240 (by norm_num) ⟨240000, by norm_num⟩⟩

/-- C1 as stated is false off the millisecond grid: a source of
duration 0.0004 s yields the single chunk `(0, 0.0, 0.0)` (both times
round to 0), so no chunk satisfies `start_sec < end_sec` and the last
chunk's `end_sec` is not the duration. -/
theorem c1_counterexample :
    (0 : ℚ) < 1/2500 ∧
    ¬ (∀ c ∈ createChunksDefault (1/2500), c.end_sec ≤ 1/2500 ∧
        c.start_sec < c.end_sec) ∧
    ((createChunksDefault (1/2500)).getLast?).map (fun c => c.end_sec) ≠
      some (1/2500) := by
  refine ⟨by norm_num, ?_, ?_⟩ <;> with_unfolding_all decide

/-! ### Claim C2: globalization of per-chunk segments -/

/-- C2, amended: each stored utterance's `startSec`/`endSec` is the
chunk-shifted segment time rounded to 3 decimals, hence within `1/2000`
(0.0005 s) of `chunk.start_sec + segment.start_sec`; the 1e-6 tolerance
of the claim as stated does not survive the rounding. -/
theorem c2_globalization (chunk_start : ℚ) (segments : List Segment)
    (i : ℕ) (h : i < segments.length) :
    ∃ hu : i < (globalizeSegments chunk_start segments).length,
      ((globalizeSegments chunk_start segments).get ⟨i, hu⟩).startSec =
          round3 (chunk_start + (segments.get ⟨i, h⟩).start_sec) ∧
      |((globalizeSegments chunk_start segments).get ⟨i, hu⟩).startSec -
          (chunk_start + (segments.get ⟨i, h⟩).start_sec)| ≤ 1/2000 ∧
      ((globalizeSegments chunk_start segments).get ⟨i, hu⟩).endSec =
          round3 (chunk_start + (segments.get ⟨i, h⟩).end_sec) ∧
      |((globalizeSegments chunk_start segments).get ⟨i, hu⟩).endSec -
          (chunk_start + (segments.get ⟨i, h⟩).end_sec)| ≤ 1/2000 := by
  have hu : i < (globalizeSegments chunk_start segments).length := by
    simpa [globalizeSegments] using h
  refine ⟨hu, ?_, ?_, ?_, ?_⟩ <;>
    simp only [globalizeSegments, List.get_eq_getElem, List.getElem_map] <;>
    first
      | rfl
      | exact abs_round3_sub_le _

/-- Witness for C2: chunk start 0, one segment starting at 0.0004 s. -/
theorem c2_globalization_witness :
    (0 : ℕ) < ([⟨1/2500, 1, "speaker_0".data, "hej".data, none⟩] : List Segment).length ∧
    ∃ hu : 0 < (globalizeSegments 0 [⟨1/2500, 1, "speaker_0".data, "hej".data, none⟩]).length,
      ((globalizeSegments 0 [⟨1/2500, 1, "speaker_0".data, "hej".data, none⟩]).get ⟨0, hu⟩).startSec =
          round3 (0 + (([⟨1/2500, 1, "speaker_0".data, "hej".data, none⟩] : List Segment).get
            ⟨0, by norm_num⟩).start_sec) ∧
      |((globalizeSegments 0 [⟨1/2500, 1, "speaker_0".data, "hej".data, none⟩]).get ⟨0, hu⟩).startSec -
          (0 + (([⟨1/2500, 1, "speaker_0".data, "hej".data, none⟩] : List Segment).get
            ⟨0, by norm_num⟩).start_sec)| ≤ 1/2000 ∧
      ((globalizeSegments 0 [⟨1/2500, 1, "speaker_0".data, "hej".data, none⟩]).get ⟨0, hu⟩).endSec =
          round3 (0 + (([⟨1/2500, 1, "speaker_0".data, "hej".data, none⟩] : List Segment).get
            ⟨0, by norm_num⟩).end_sec) ∧
      |((globalizeSegments 0 [⟨1/2500, 1, "speaker_0".data, "hej".data, none⟩]).get ⟨0, hu⟩).endSec -
          (0 + (([⟨1/2500, 1, "speaker_0".data, "hej".data, none⟩] : List Segment).get
            ⟨0, by norm_num⟩).end_sec)| ≤ 1/2000 :=
  ⟨by norm_num, c2_globalization 0 _ 0 (by norm_num)⟩

/-- C2 as stated is false: with chunk start 0 and a segment starting at
0.0004 s the stored `startSec` is 0, which is 0.0004 away from
`chunk.start_sec + segment.start_sec` — more than the claimed 1e-6. -/
theorem c2_counterexample :
    ((globalizeSegments 0 [⟨1/2500, 1, "speaker_0".data, "hej".data, none⟩]).map
      (fun u => u.startSec)) = [0] ∧
    ¬ (|(0 : ℚ) - (0 + 1/2500)| ≤ 1/1000000) := by
  constructor
  · with_unfolding_all decide
  · simp only [zero_add, zero_sub, abs_neg]
    rw [abs_of_nonneg (by norm_num : (0:ℚ) ≤ 1/2500)]
    norm_num

/-! ### Claim C4: clearing `error_message` on transitions into `ready` -/

/-- C4 as stated is false at the store level: `update_job_status` can
move a job from `failed` into `ready` without touching
`error_message`. -/
theorem c4_counterexample :
    (updateJobStatus ⟨"failed".data, some "x".data, none, 0, 0⟩ "ready".data
        none none none).status = "ready".data ∧
    (⟨"failed".data, some "x".data, none, 0, 0⟩ : Job).status ≠ "ready".data ∧
    (updateJobStatus ⟨"failed".data, some "x".data, none, 0, 0⟩ "ready".data
        none none none).error_message = some "x".data := by
  refine ⟨rfl, by decide, rfl⟩

/-- C4, amended: `set_final_transcript` clears `error_message` on every
call — in particular on the worker's transition into `ready` — and the
`update_job_status(job, "ready", chunks_done, chunks_total)` call that
follows it in the worker passes no `error_message` and therefore leaves
it `NULL`. -/
theorem c4_ready_clears_error (j : Job) (transcript : List Utterance)
    (chunks_done chunks_total : Option ℕ) :
    (setFinalTranscript j transcript "ready".data).error_message = none ∧
    (updateJobStatus (setFinalTranscript j transcript "ready".data) "ready".data
        chunks_done chunks_total none).error_message = none :=
  ⟨rfl, rfl⟩

/-! ### Claim C7: retry exhaustion of the remote engine -/

theorem retryGo_all_error (attempt : ℕ → Except (List Char) (List Segment × Option ℚ))
    (errs : ℕ → List Char) (max_retries : ℕ)
    (hall : ∀ k, attempt k = .error (errs k)) :
    ∀ remaining i, 1 ≤ remaining →
      retryGo attempt max_retries remaining i =
        .error (remoteFailMsg max_retries (errs (i + remaining - 1))) := by
  intro remaining
  induction remaining with
  | zero => intro i h; omega
  | succ n ih =>
    intro i _
    rw [retryGo, hall i]
    dsimp only
    by_cases hn : n = 0
    · subst hn
      simp
    · rw [if_neg hn, ih (i + 1) (by omega)]
      have harith : i + 1 + n - 1 = i + (n + 1) - 1 := by omega
      rw [harith]

theorem digitChar_ne_oslash (m : ℕ) : Nat.digitChar m ≠ 'ø' := by
  by_cases h : m < 16
  · interval_cases m <;> decide
  · have h0 : Nat.digitChar m = '*' := by
      unfold Nat.digitChar
      repeat rw [if_neg (by omega)]
    rw [h0]
    decide

theorem toDigitsCore_mem (base : ℕ) (fuel : ℕ) :
    ∀ (n : ℕ) (ds : List Char) (c : Char), c ∈ Nat.toDigitsCore base fuel n ds →
      c ∈ ds ∨ ∃ m, c = Nat.digitChar m := by
  induction fuel with
  | zero => intro n ds c hc; exact .inl hc
  | succ f ih =>
    intro n ds c hc
    unfold Nat.toDigitsCore at hc
    dsimp only at hc
    by_cases hz : n / base = 0
    · rw [if_pos hz] at hc
      rcases List.mem_cons.mp hc with hc | hc
      · exact .inr ⟨n % base, hc⟩
      · exact .inl hc
    · rw [if_neg hz] at hc
      rcases ih _ _ _ hc with h | h
      · rcases List.mem_cons.mp h with h | h
        · exact .inr ⟨n % base, h⟩
        · exact .inl h
      · exact .inr h

/-- The decimal rendering of a natural number never contains the
character `ø`. -/
theorem natChars_ne_oslash (n : ℕ) {c : Char} (hc : c ∈ natChars n) : c ≠ 'ø' := by
  have h2 : c ∈ Nat.toDigits 10 n := hc
  unfold Nat.toDigits at h2
  rcases toDigitsCore_mem 10 (n + 1) n [] c h2 with h | ⟨m, rfl⟩
  · exact absurd h (by simp)
  · exact digitChar_ne_oslash m

/-- C7 names a code bug: when every attempt fails,
`transcribe_chunk_openai` does raise after `max_retries` attempts with
a message carrying the attempt count and the last error's text — but
the message spells the double-encoded `forsÃ¸g` (the source literal's
bytes are `C3 83 C2 B8` where `ø` = `C3 B8` was intended), so whenever
the underlying error text itself contains no `ø` the raised message
does not contain the substring `forsøg` that the claim (and the
repository's own test) expects. -/
theorem c7_retry_mojibake (attempt : ℕ → Except (List Char) (List Segment × Option ℚ))
    (errs : ℕ → List Char) (max_retries : ℕ) (hmr : 1 ≤ max_retries)
    (hall : ∀ k, attempt k = .error (errs k))
    (hno : 'ø' ∉ errs max_retries) :
    transcribeChunkRemote attempt max_retries =
      .error (remoteFailMsg max_retries (errs max_retries)) ∧
    (∃ p s, remoteFailMsg max_retries (errs max_retries) =
      p ++ ("efter ".data ++ natChars max_retries ++ " forsÃ¸g".data) ++ s) ∧
    (∃ p, remoteFailMsg max_retries (errs max_retries) = p ++ errs max_retries) ∧
    ∀ p s, remoteFailMsg max_retries (errs max_retries) ≠ p ++ "forsøg".data ++ s := by
  refine ⟨?_, ?_, ?_, ?_⟩
  · unfold transcribeChunkRemote
    rw [retryGo_all_error attempt errs max_retries hall max_retries 1 hmr]
    have harith : 1 + max_retries - 1 = max_retries := by omega
    rw [harith]
  · exact ⟨"OpenAI transskription fejlede ".data, ": ".data ++ errs max_retries,
      by simp [remoteFailMsg]⟩
  · exact ⟨"OpenAI transskription fejlede ".data ++
      ("efter ".data ++ natChars max_retries ++ " forsÃ¸g".data) ++ ": ".data,
      by simp [remoteFailMsg]⟩
  · intro p s heq
    have hin : 'ø' ∈ remoteFailMsg max_retries (errs max_retries) := by
      rw [heq]
      have hf : 'ø' ∈ "forsøg".data := by decide
      simp only [List.mem_append]
      tauto
    have hout : 'ø' ∉ remoteFailMsg max_retries (errs max_retries) := by
      intro hmem
      unfold remoteFailMsg at hmem
      simp only [List.mem_append] at hmem
      have h1 : 'ø' ∉ "OpenAI transskription fejlede ".data := by decide
      have h2 : 'ø' ∉ "efter ".data := by decide
      have h3 : 'ø' ∉ " forsÃ¸g".data := by decide
      have h4 : 'ø' ∉ ": ".data := by decide
      have h5 : 'ø' ∉ natChars max_retries := fun hm => natChars_ne_oslash max_retries hm rfl
      tauto
    exact hout hin

/-- The mock remote of scenario S5: every attempt raises
"The request timed out.". -/
def mockTimeoutAttempt : ℕ → Except (List Char) (List Segment × Option ℚ) :=
  fun _ => .error "The request timed out.".data

/-- Witness for C7's code-bug theorem at `max_retries = 2`:
concretely, the raised message does contain "timed out" and the
mojibake "efter 2 forsÃ¸g", and no decomposition of it exhibits
"forsøg". -/
theorem c7_retry_mojibake_witness :
    (1 ≤ 2 ∧
     (∀ k, mockTimeoutAttempt k = .error "The request timed out.".data) ∧
     'ø' ∉ "The request timed out.".data) ∧
    (transcribeChunkRemote mockTimeoutAttempt 2 =
       .error (remoteFailMsg 2 "The request timed out.".data) ∧
     (∃ p s, remoteFailMsg 2 "The request timed out.".data =
       p ++ ("efter ".data ++ natChars 2 ++ " forsÃ¸g".data) ++ s) ∧
     (∃ p, remoteFailMsg 2 "The request timed out.".data =
       p ++ "The request timed out.".data) ∧
     ∀ p s, remoteFailMsg 2 "The request timed out.".data ≠
       p ++ "forsøg".data ++ s) ∧
    (∃ p s, remoteFailMsg 2 "The request timed out.".data =
       p ++ "timed out".data ++ s) := by
  have h := c7_retry_mojibake mockTimeoutAttempt
    (fun _ => "The request timed out.".data) 2 (by norm_num) (fun k => rfl)
    (by decide)
  refine ⟨⟨by norm_num, fun k => rfl, by decide⟩, h, ?_⟩
  exact ⟨"OpenAI transskription fejlede efter 2 forsÃ¸g: The request ".data,
    ".".data, by decide⟩

/-! ### Claim C9: `swap_roles` is an involution on transcripts -/

theorem swapSpeaker_involutive (u : Utterance) : swapSpeaker (swapSpeaker u) = u := by
  rcases u with ⟨s, e, spk, t, c⟩
  unfold swapSpeaker
  by_cases h1 : spk = "I".data
  · simp [h1]
  · by_cases h2 : spk = "D".data
    · simp [h1, h2]
    · simp [h1, h2]

theorem map_swapSpeaker_map_swapSpeaker (l : List Utterance) :
    (l.map swapSpeaker).map swapSpeaker = l := by
  induction l with
  | nil => rfl
  | cons a t ih => simp [swapSpeaker_involutive, ih]

/-- C9: for a job with a stored transcript, toggling swapped roles
twice stores the original transcript again (`swap_roles` is an
involution on the transcript). -/
theorem c9_swap_involution (j : Job) (ts : List Utterance)
    (h : j.transcript = some ts) :
    ((toggleSwapRoles ((toggleSwapRoles j).2)).2).transcript = j.transcript := by
  simp only [toggleSwapRoles, setFinalTranscript, getTranscript, h, Option.getD_some]
  rw [map_swapSpeaker_map_swapSpeaker]

/-- Witness for C9 at a one-utterance transcript. -/
theorem c9_swap_involution_witness :
    ((⟨"ready".data, none, some [⟨0, 1, "I".data, "hej".data, none⟩], 1, 1⟩ : Job).transcript
        = some [⟨0, 1, "I".data, "hej".data, none⟩]) ∧
    ((toggleSwapRoles ((toggleSwapRoles
        (⟨"ready".data, none, some [⟨0, 1, "I".data, "hej".data, none⟩], 1, 1⟩ : Job)).2)).2).transcript =
      (⟨"ready".data, none, some [⟨0, 1, "I".data, "hej".data, none⟩], 1, 1⟩ : Job).transcript :=
  ⟨rfl, c9_swap_involution _ _ rfl⟩

/-! ### Claim C3: label closure of `merge_and_label` -/

/-- C3: every utterance emitted by `merge_and_label` is labeled `"I"`
or `"D"`. -/
theorem c3_label_closure (segments : List Segment)
    (interviewer_count participant_count : ℤ) :
    ∀ u ∈ mergeAndLabel segments interviewer_count participant_count,
      u.speaker = "I".data ∨ u.speaker = "D".data := by
  intro u hu
  unfold mergeAndLabel mapToInterviewerParticipant at hu
  simp only [List.mem_map] at hu
  obtain ⟨seg, _, rfl⟩ := hu
  dsimp only
  split
  · exact Or.inl rfl
  · exact Or.inr rfl

/-- Witness for C3 at a one-segment input. -/
theorem c3_label_closure_witness :
    (⟨0, 1, "I".data, "Hej med dig".data, none⟩ : Utterance) ∈
      mergeAndLabel [⟨0, 1, "a".data, "Hej med dig".data, none⟩] 1 1 ∧
    ((⟨0, 1, "I".data, "Hej med dig".data, none⟩ : Utterance).speaker = "I".data ∨
     (⟨0, 1, "I".data, "Hej med dig".data, none⟩ : Utterance).speaker = "D".data) :=
  ⟨by with_unfolding_all decide,
   c3_label_closure [⟨0, 1, "a".data, "Hej med dig".data, none⟩] 1 1 _
     (by with_unfolding_all decide)⟩

/-! ### Claim C10: two distinct raw speakers yield both labels -/

theorem updateAssoc_keys (key : List Char) (seg : Segment) :
    ∀ acc : List (List Char × SpeakerStats),
      (updateAssoc acc key seg).map Prod.fst =
        if key ∈ acc.map Prod.fst then acc.map Prod.fst
        else acc.map Prod.fst ++ [key] := by
  intro acc
  induction acc with
  | nil => simp [updateAssoc]
  | cons p rest ih =>
    rcases p with ⟨k, st⟩
    by_cases hk : k = key
    · subst hk
      simp [updateAssoc]
    · simp only [updateAssoc, if_neg hk, List.map_cons, ih]
      by_cases hmem : key ∈ rest.map Prod.fst
      · simp [hmem, Ne.symm hk]
      · simp [hmem, Ne.symm hk]

theorem collectStatsAux_keys (l : List Segment) :
    ∀ acc : List (List Char × SpeakerStats), ∀ x,
       x ∈ (l.foldl (fun acc segment =>
          updateAssoc acc (defaultSpeaker segment.speaker) segment) acc).map Prod.fst ↔
        x ∈ acc.map Prod.fst ∨ x ∈ l.map (fun s => defaultSpeaker s.speaker) := by
  induction l with
  | nil => simp
  | cons s t ih =>
    intro acc x
    simp only [List.foldl_cons, List.map_cons, List.mem_cons]
    rw [ih]
    rw [updateAssoc_keys]
    by_cases hmem : defaultSpeaker s.speaker ∈ acc.map Prod.fst
    · rw [if_pos hmem]
      constructor
      · rintro (h | h)
        · exact Or.inl h
        · exact Or.inr (Or.inr h)
      · rintro (h | h | h)
        · exact Or.inl h
        · exact Or.inl (h ▸ hmem)
        · exact Or.inr h
    · rw [if_neg hmem]
      simp only [List.mem_append, List.mem_singleton]
      tauto

theorem collectStats_keys (l : List Segment) (x : List Char) :
    x ∈ (collectStats l).map Prod.fst ↔
      x ∈ l.map (fun s => defaultSpeaker s.speaker) := by
  unfold collectStats
  rw [collectStatsAux_keys]
  simp

theorem collectStatsAux_nodup (l : List Segment) :
    ∀ acc : List (List Char × SpeakerStats),
      (acc.map Prod.fst).Nodup →
      ((l.foldl (fun acc segment =>
          updateAssoc acc (defaultSpeaker segment.speaker) segment) acc).map Prod.fst).Nodup := by
  induction l with
  | nil => intro acc h; simpa using h
  | cons s t ih =>
    intro acc hacc
    simp only [List.foldl_cons]
    apply ih
    rw [updateAssoc_keys]
    by_cases hmem : defaultSpeaker s.speaker ∈ acc.map Prod.fst
    · rwa [if_pos hmem]
    · rw [if_neg hmem]
      refine List.Nodup.append hacc (List.nodup_singleton _) ?_
      intro a ha hb
      rw [List.mem_singleton] at hb
      exact hmem (hb ▸ ha)

theorem collectStats_nodup (l : List Segment) :
    ((collectStats l).map Prod.fst).Nodup := by
  unfold collectStats
  exact collectStatsAux_nodup l [] (by simp)

theorem expectedInterviewerSlots_bounds (u : ℕ) (hu : 2 ≤ u)
    (interviewer_count participant_count : ℤ) :
    1 ≤ expectedInterviewerSlots u interviewer_count participant_count ∧
    expectedInterviewerSlots u interviewer_count participant_count ≤ (u : ℤ) - 1 := by
  unfold expectedInterviewerSlots
  rw [if_neg (by omega)]
  dsimp only
  have h2 : (2 : ℤ) ≤ (u : ℤ) := by exact_mod_cast hu
  omega

theorem inferInterviewerSpeakers_spec (ordered : List Segment)
    (interviewer_count participant_count : ℤ)
    (hne : ordered ≠ []) (hlen : 2 ≤ (collectStats ordered).length) :
    inferInterviewerSpeakers ordered interviewer_count participant_count ≠ [] ∧
    (∀ x ∈ inferInterviewerSpeakers ordered interviewer_count participant_count,
      x ∈ (collectStats ordered).map Prod.fst) ∧
    (∃ y ∈ (collectStats ordered).map Prod.fst,
      y ∉ inferInterviewerSpeakers ordered interviewer_count participant_count) := by
  have hslots := expectedInterviewerSlots_bounds (collectStats ordered).length hlen
    interviewer_count participant_count
  have hsorted_len :
      (List.insertionSort scoredLE ((collectStats ordered).map scoreOf)).length =
        (collectStats ordered).length := by
    rw [List.length_insertionSort, List.length_map]
  have hres : inferInterviewerSpeakers ordered interviewer_count participant_count =
      ((List.insertionSort scoredLE ((collectStats ordered).map scoreOf)).take
        (expectedInterviewerSlots (collectStats ordered).length
          interviewer_count participant_count).toNat).map Prod.fst := by
    unfold inferInterviewerSpeakers
    rw [if_neg hne, if_neg (by omega)]
    dsimp only
    rw [if_neg ?hne2]
    case hne2 =>
      apply List.ne_nil_of_length_pos
      rw [List.length_map, List.length_take, hsorted_len]
      omega
  have hTlen : (((List.insertionSort scoredLE ((collectStats ordered).map scoreOf)).take
        (expectedInterviewerSlots (collectStats ordered).length
          interviewer_count participant_count).toNat).map Prod.fst).length ≤
      (expectedInterviewerSlots (collectStats ordered).length
        interviewer_count participant_count).toNat := by
    rw [List.length_map, List.length_take]
    omega
  have hsub : ∀ x ∈ inferInterviewerSpeakers ordered interviewer_count participant_count,
      x ∈ (collectStats ordered).map Prod.fst := by
    intro x hx
    rw [hres] at hx
    obtain ⟨t, ht, rfl⟩ := List.mem_map.mp hx
    have ht2 : t ∈ List.insertionSort scoredLE ((collectStats ordered).map scoreOf) :=
      List.mem_of_mem_take ht
    have ht3 : t ∈ (collectStats ordered).map scoreOf :=
      (List.perm_insertionSort scoredLE _).mem_iff.mp ht2
    obtain ⟨p, hp, rfl⟩ := List.mem_map.mp ht3
    exact List.mem_map.mpr ⟨p, hp, rfl⟩
  refine ⟨?_, hsub, ?_⟩
  · rw [hres]
    apply List.ne_nil_of_length_pos
    rw [List.length_map, List.length_take, hsorted_len]
    omega
  · by_contra hall
    push_neg at hall
    have hsubset : ((collectStats ordered).map Prod.fst).toFinset ⊆
        (inferInterviewerSpeakers ordered interviewer_count participant_count).toFinset := by
      intro a ha
      rw [List.mem_toFinset] at ha ⊢
      exact hall a ha
    have hcard1 : ((collectStats ordered).map Prod.fst).toFinset.card =
        (collectStats ordered).length := by
      rw [List.toFinset_card_of_nodup (collectStats_nodup ordered), List.length_map]
    have hcard2 :=
      (Finset.card_le_card hsubset).trans (List.toFinset_card_le _)
    rw [hcard1, hres] at hcard2
    have hcard3 := hcard2.trans hTlen
    omega

/-- C10: an input with at least two distinct (defaulted) raw speaker
ids yields at least one `"I"` and at least one `"D"` label, since the
interviewer slot count always lies strictly between 0 and the number of
unique speakers. -/
theorem c10_both_labels (segments : List Segment)
    (interviewer_count participant_count : ℤ)
    (h : ∃ s1 ∈ segments, ∃ s2 ∈ segments,
      defaultSpeaker s1.speaker ≠ defaultSpeaker s2.speaker) :
    (∃ u ∈ mapToInterviewerParticipant segments interviewer_count participant_count,
      u.speaker = "I".data) ∧
    (∃ u ∈ mapToInterviewerParticipant segments interviewer_count participant_count,
      u.speaker = "D".data) := by
  obtain ⟨s1, hs1, s2, hs2, hdiff⟩ := h
  have hperm : List.Perm (pySortSegments segments) segments := List.perm_insertionSort _ _
  have hs1' : s1 ∈ pySortSegments segments := hperm.mem_iff.mpr hs1
  have hs2' : s2 ∈ pySortSegments segments := hperm.mem_iff.mpr hs2
  have hne : pySortSegments segments ≠ [] := by
    intro hnil
    rw [hnil] at hs1'
    simp at hs1'
  have hk1 : defaultSpeaker s1.speaker ∈ (collectStats (pySortSegments segments)).map Prod.fst :=
    (collectStats_keys _ _).mpr (List.mem_map.mpr ⟨s1, hs1', rfl⟩)
  have hk2 : defaultSpeaker s2.speaker ∈ (collectStats (pySortSegments segments)).map Prod.fst :=
    (collectStats_keys _ _).mpr (List.mem_map.mpr ⟨s2, hs2', rfl⟩)
  have hlen : 2 ≤ (collectStats (pySortSegments segments)).length := by
    have hpair : ({defaultSpeaker s1.speaker, defaultSpeaker s2.speaker} :
        Finset (List Char)).card = 2 := Finset.card_pair hdiff
    have hsubset : ({defaultSpeaker s1.speaker, defaultSpeaker s2.speaker} :
        Finset (List Char)) ⊆ ((collectStats (pySortSegments segments)).map Prod.fst).toFinset := by
      intro a ha
      rw [Finset.mem_insert, Finset.mem_singleton] at ha
      rw [List.mem_toFinset]
      rcases ha with rfl | rfl
      · exact hk1
      · exact hk2
    have := (Finset.card_le_card hsubset).trans (List.toFinset_card_le _)
    rw [List.length_map] at this
    omega
  obtain ⟨hpicked_ne, hpicked_sub, y, hy_keys, hy_not⟩ :=
    inferInterviewerSpeakers_spec (pySortSegments segments)
      interviewer_count participant_count hne hlen
  constructor
  · obtain ⟨p, hp⟩ := List.exists_mem_of_ne_nil _ hpicked_ne
    have hp_keys := hpicked_sub p hp
    obtain ⟨seg, hseg, hseg_eq⟩ :=
      List.mem_map.mp ((collectStats_keys _ _).mp hp_keys)
    refine ⟨_, List.mem_map.mpr ⟨seg, hseg, rfl⟩, ?_⟩
    dsimp only
    rw [if_pos ?hc]
    case hc =>
      show List.elem _ _ = true
      exact List.elem_iff.mpr (hseg_eq ▸ hp)
  · obtain ⟨seg, hseg, hseg_eq⟩ :=
      List.mem_map.mp ((collectStats_keys _ _).mp hy_keys)
    refine ⟨_, List.mem_map.mpr ⟨seg, hseg, rfl⟩, ?_⟩
    dsimp only
    rw [if_neg ?hc]
    case hc =>
      show ¬ List.elem _ _ = true
      intro hmem
      exact hy_not (hseg_eq ▸ List.elem_iff.mp hmem)

/-- Two-speaker demo input for the C10 witness. -/
def c10DemoSegments : List Segment :=
  [⟨0, 1, "a".data, "Hej med dig".data, none⟩,
   ⟨2, 3, "b".data, "Godt at se dig".data, none⟩]

/-- Witness for C10: two segments with distinct raw speakers. -/
theorem c10_both_labels_witness :
    (∃ s1 ∈ c10DemoSegments, ∃ s2 ∈ c10DemoSegments,
       defaultSpeaker s1.speaker ≠ defaultSpeaker s2.speaker) ∧
    ((∃ u ∈ mapToInterviewerParticipant c10DemoSegments 1 1, u.speaker = "I".data) ∧
     (∃ u ∈ mapToInterviewerParticipant c10DemoSegments 1 1, u.speaker = "D".data)) :=
  ⟨⟨⟨0, 1, "a".data, "Hej med dig".data, none⟩, by simp [c10DemoSegments],
    ⟨2, 3, "b".data, "Godt at se dig".data, none⟩, by simp [c10DemoSegments],
    by with_unfolding_all decide⟩,
   c10_both_labels c10DemoSegments 1 1
     ⟨⟨0, 1, "a".data, "Hej med dig".data, none⟩, by simp [c10DemoSegments],
      ⟨2, 3, "b".data, "Godt at se dig".data, none⟩, by simp [c10DemoSegments],
      by with_unfolding_all decide⟩⟩

/-! ### Claim C8: the editor-text parser -/

/-- A raw editor line is well formed: it matches the speaker-line
grammar with a non-empty body. -/
def lineOkB (raw : List Char) : Bool :=
  match matchSpeakerLine (raw.filter (· ≠ '\x0d')) with
  | some (_, g2) => decide (pyStripWs g2 ≠ [])
  | none => false

/-- The parsed payload of a well-formed line: upper-cased speaker and
stripped body. -/
def lineData (raw : List Char) : Char × List Char :=
  match matchSpeakerLine (raw.filter (· ≠ '\x0d')) with
  | some (c, g2) => (pyUpper c, pyStripWs g2)
  | none => ('?', [])

theorem pyStripWs_ne_nil_of_dropWhile {l : List Char}
    (h : l.dropWhile isPySpace ≠ []) : pyStripWs l ≠ [] := by
  have hc := List.head_dropWhile_not isPySpace l h
  unfold pyStripWs
  intro hnil
  rw [List.reverse_eq_nil_iff, List.dropWhile_eq_nil_iff] at hnil
  have hmem : (l.dropWhile isPySpace).head h ∈ (l.dropWhile isPySpace).reverse := by
    rw [List.mem_reverse]
    exact List.head_mem h
  rw [hnil _ hmem] at hc
  exact Bool.noConfusion hc

theorem matchSpeakerLine_dropWhile_ne_nil {line : List Char} {c : Char} {g2 : List Char}
    (h : matchSpeakerLine line = some (c, g2)) :
    line.dropWhile isPySpace ≠ [] := by
  intro h0
  rw [matchSpeakerLine, h0] at h
  exact Option.noConfusion h

theorem parseLines_all_ok : ∀ (lines : List (List Char)) (n : ℕ),
    (∀ raw ∈ lines, lineOkB raw = true) →
    parseLines lines n = .ok (lines.map lineData) := by
  intro lines
  induction lines with
  | nil => intro n _; rfl
  | cons raw rest ih =>
    intro n hok
    have hraw := hok raw (List.mem_cons_self raw rest)
    rcases hm : matchSpeakerLine (raw.filter (· ≠ '\x0d')) with _ | ⟨c, g2⟩
    · rw [lineOkB, hm] at hraw
      exact absurd hraw (by simp)
    · have hbody : pyStripWs g2 ≠ [] := by
        rw [lineOkB, hm] at hraw
        simpa using hraw
      have hstripped : pyStripWs (raw.filter (· ≠ '\x0d')) ≠ [] :=
        pyStripWs_ne_nil_of_dropWhile (matchSpeakerLine_dropWhile_ne_nil hm)
      rw [parseLines]
      dsimp only
      rw [if_neg hstripped, hm]
      dsimp only
      rw [if_neg hbody, ih (n + 1) (fun r hr => hok r (List.mem_cons_of_mem _ hr))]
      dsimp only [Except.map]
      rw [List.map_cons]
      congr 1
      rw [lineData, hm]

theorem convertUtterances_length (confs : List (Option ℚ)) :
    ∀ (l : List (Char × List Char)) (idx : ℕ),
      (convertUtterances confs idx l).length = l.length := by
  intro l
  induction l with
  | nil => intro idx; rfl
  | cons p rest ih =>
    intro idx
    rcases p with ⟨c, body⟩
    simp only [convertUtterances, List.length_cons, ih]

theorem round3_nat_mul3 (k : ℕ) : round3 ((k : ℚ) * 3) = (k : ℚ) * 3 :=
  round3_eq_of_onGrid ⟨3000 * k, by push_cast; ring⟩

theorem round3_nat_mul3_add1 (k : ℕ) : round3 ((k : ℚ) * 3 + 1) = (k : ℚ) * 3 + 1 :=
  round3_eq_of_onGrid ⟨3000 * k + 1000, by push_cast; ring⟩

theorem convertUtterances_get (confs : List (Option ℚ)) :
    ∀ (l : List (Char × List Char)) (idx i : ℕ) (h : i < l.length)
      (h2 : i < (convertUtterances confs idx l).length),
      (convertUtterances confs idx l).get ⟨i, h2⟩ =
        { startSec := ((idx + i : ℕ) : ℚ) * 3,
          endSec := ((idx + i : ℕ) : ℚ) * 3 + 1,
          speaker := [(l.get ⟨i, h⟩).1],
          text := (l.get ⟨i, h⟩).2,
          confidence := confs.getD (idx + i) none } := by
  intro l
  induction l with
  | nil => intro idx i h; exact absurd h (by simp)
  | cons p rest ih =>
    intro idx i h h2
    rcases p with ⟨c, body⟩
    cases i with
    | zero =>
      simp only [convertUtterances, List.get]
      have h3 : round3 ((idx : ℚ) * SEGMENT_START_STEP) = ((idx + 0 : ℕ) : ℚ) * 3 := by
        simp only [SEGMENT_START_STEP, Nat.add_zero]
        exact round3_nat_mul3 idx
      have h4 : round3 ((idx : ℚ) * SEGMENT_START_STEP + SEGMENT_DURATION) =
          ((idx + 0 : ℕ) : ℚ) * 3 + 1 := by
        simp only [SEGMENT_START_STEP, SEGMENT_DURATION, Nat.add_zero]
        exact round3_nat_mul3_add1 idx
      rw [h3, h4]
      simp
    | succ i' =>
      simp only [convertUtterances, List.get]
      have hlt : i' < rest.length := by
        simpa using h
      have hlt2 : i' < (convertUtterances confs (idx + 1) rest).length := by
        rw [convertUtterances_length]
        exact hlt
      have := ih (idx + 1) i' hlt hlt2
      rw [this]
      have harith : idx + 1 + i' = idx + (i' + 1) := by omega
      rw [harith]

/-- C8, amended: on input whose every line matches the speaker grammar
with a non-empty body, `parse_editor_text` emits one utterance per line
in order, with 0-based line index `i` (not the 1-based line number):
`startSec = i*3.0`, `endSec = startSec + 1.0`, and confidence taken
from `fallback_transcript[i]` when that row exists. -/
theorem c8_parse_editor_text (text : List Char) (fallback_transcript : List Utterance)
    (hne : pySplitlines text ≠ [])
    (hok : ∀ raw ∈ pySplitlines text, lineOkB raw = true) :
    ∃ out, parseEditorText text fallback_transcript = .ok out ∧
      out.length = (pySplitlines text).length ∧
      ∀ i (h : i < out.length) (hl : i < (pySplitlines text).length),
        (out.get ⟨i, h⟩).startSec = (i : ℚ) * 3 ∧
        (out.get ⟨i, h⟩).endSec = (i : ℚ) * 3 + 1 ∧
        (out.get ⟨i, h⟩).speaker = [(lineData ((pySplitlines text).get ⟨i, hl⟩)).1] ∧
        (out.get ⟨i, h⟩).text = (lineData ((pySplitlines text).get ⟨i, hl⟩)).2 ∧
        (out.get ⟨i, h⟩).confidence =
          (fallback_transcript.map (fun u => u.confidence)).getD i none := by
  have hparse := parseLines_all_ok (pySplitlines text) 0 hok
  have hmap_ne : (pySplitlines text).map lineData ≠ [] := by
    simpa using hne
  refine ⟨convertUtterances (fallback_transcript.map (fun u => u.confidence)) 0
    ((pySplitlines text).map lineData), ?_, ?_, ?_⟩
  · unfold parseEditorText
    rw [hparse]
    dsimp only
    rw [if_neg hmap_ne]
  · rw [convertUtterances_length, List.length_map]
  · intro i h hl
    have hlm : i < ((pySplitlines text).map lineData).length := by
      rwa [List.length_map]
    have hget := convertUtterances_get (fallback_transcript.map (fun u => u.confidence))
      ((pySplitlines text).map lineData) 0 i hlm h
    rw [hget]
    have hzero : ((0 + i : ℕ) : ℚ) = (i : ℚ) := by push_cast; ring
    have hzero2 : 0 + i = i := by omega
    refine ⟨by rw [hzero], by rw [hzero], ?_, ?_, by rw [hzero2]⟩
    · rw [List.get_eq_getElem, List.getElem_map]
      rfl
    · rw [List.get_eq_getElem, List.getElem_map]
      rfl

/-- Witness for C8: two lines, one fallback confidence row. -/
theorem c8_parse_editor_text_witness :
    (pySplitlines "I: Hej\nd: Davs".data ≠ [] ∧
     (∀ raw ∈ pySplitlines "I: Hej\nd: Davs".data, lineOkB raw = true)) ∧
    (∃ out, parseEditorText "I: Hej\nd: Davs".data
        [⟨0, 0, "x".data, "y".data, some (9/10)⟩] = .ok out ∧
      out.length = (pySplitlines "I: Hej\nd: Davs".data).length ∧
      ∀ i (h : i < out.length) (hl : i < (pySplitlines "I: Hej\nd: Davs".data).length),
        (out.get ⟨i, h⟩).startSec = (i : ℚ) * 3 ∧
        (out.get ⟨i, h⟩).endSec = (i : ℚ) * 3 + 1 ∧
        (out.get ⟨i, h⟩).speaker =
          [(lineData ((pySplitlines "I: Hej\nd: Davs".data).get ⟨i, hl⟩)).1] ∧
        (out.get ⟨i, h⟩).text =
          (lineData ((pySplitlines "I: Hej\nd: Davs".data).get ⟨i, hl⟩)).2 ∧
        (out.get ⟨i, h⟩).confidence =
          (([⟨0, 0, "x".data, "y".data, some (9/10)⟩] : List Utterance).map
            (fun u => u.confidence)).getD i none) :=
  ⟨⟨by with_unfolding_all decide, by with_unfolding_all decide⟩,
   c8_parse_editor_text "I: Hej\nd: Davs".data [⟨0, 0, "x".data, "y".data, some (9/10)⟩]
     (by with_unfolding_all decide) (by with_unfolding_all decide)⟩

/-- C8 as stated (1-indexed line number `i` with `startSec = i*3.0`) is
false: the single well-formed line "I: Hej" is line 1, but its emitted
`startSec` is 0, not 3; the code enumerates from 0. -/
theorem c8_counterexample :
    (parseEditorText "I: Hej".data []).toOption =
      some [⟨0, 1, "I".data, "Hej".data, none⟩] ∧ (0 : ℚ) ≠ (1 : ℚ) * 3 := by
  constructor
  · with_unfolding_all decide
  · norm_num

/-! ### Claim C6: monotone progress over a driver run -/

/-- The `percent` values of the `progress`-type events of one stage, in
emission order. -/
def stagePercents (st : Stage) (events : List Ev) : List ℚ :=
  (events.filter (fun e => decide (e.etype = EvType.progress ∧ e.stage = st))).map
    (fun e => e.percent)

/-- The same, excluding the fallback-notice events (the `progress`
events announcing "OpenAI-fejl på chunk ..., prøver lokal
fallback..."). -/
def stagePercentsNoNotice (st : Stage) (events : List Ev) : List ℚ :=
  (events.filter (fun e => decide (e.etype = EvType.progress ∧ e.stage = st ∧
    e.kind ≠ MsgKind.fallbackNotice))).map (fun e => e.percent)

theorem pct_mono {x y : ℚ} (h : x ≤ y) : pct x ≤ pct y := by
  unfold pct
  apply roundTo_le_roundTo 100 (by norm_num)
  exact max_le_max (le_refl 0) (min_le_min (le_refl 100) h)

theorem chunkPct_mono (total : ℕ) {d1 d2 : ℕ} (h : d1 ≤ d2) :
    pct (10 + ((d1 : ℚ) / (max total 1 : ℕ)) * 80) ≤
    pct (10 + ((d2 : ℚ) / (max total 1 : ℕ)) * 80) := by
  apply pct_mono
  have hT : (0 : ℚ) < ((max total 1 : ℕ) : ℚ) := by
    have : 1 ≤ max total 1 := le_max_right _ _
    exact_mod_cast Nat.lt_of_lt_of_le Nat.zero_lt_one this
  have hd : (d1 : ℚ) ≤ (d2 : ℚ) := by exact_mod_cast h
  have := (div_le_div_right hT).mpr hd
  nlinarith

theorem driverLoop_done_lb (total : ℕ) :
    ∀ (chunks : List RunChunk) (done : ℕ),
      ∀ e ∈ driverLoop total chunks done, done ≤ e.chunksDone := by
  intro chunks
  induction chunks with
  | nil =>
    intro done e he
    simp only [driverLoop, List.mem_singleton] at he
    subst he
    exact le_refl done
  | cons c rest ih =>
    intro done e he
    rw [driverLoop] at he
    by_cases hp : c.preDone
    · rw [if_pos hp] at he
      exact ih done e he
    · rw [if_neg hp] at he
      rcases hc : c.outcome with _ | _ | _ | _ <;> rw [hc] at he <;>
        simp only [List.mem_cons, List.mem_singleton, List.not_mem_nil] at he
      · rcases he with rfl | he
        · exact Nat.le_succ done
        · exact (Nat.le_succ done).trans (ih (done + 1) e he)
      · rcases he with rfl | rfl | he
        · exact le_refl done
        · exact Nat.le_succ done
        · exact (Nat.le_succ done).trans (ih (done + 1) e he)
      · rcases he with rfl | rfl | hfalse
        · exact le_refl done
        · exact le_refl done
        · exact hfalse.elim
      · rcases he with rfl | hfalse
        · exact le_refl done
        · exact hfalse.elim

theorem driverLoop_done_chain (total : ℕ) :
    ∀ (chunks : List RunChunk) (done : ℕ),
      List.Chain' (fun a b => a.chunksDone ≤ b.chunksDone)
        (driverLoop total chunks done) := by
  intro chunks
  induction chunks with
  | nil => intro done; simp [driverLoop]
  | cons c rest ih =>
    intro done
    rw [driverLoop]
    by_cases hp : c.preDone
    · rw [if_pos hp]
      exact ih done
    · rw [if_neg hp]
      rcases hc : c.outcome with _ | _ | _ | _
      · apply List.Chain'.cons' (ih (done + 1))
        intro y hy
        exact driverLoop_done_lb total rest (done + 1) y (List.mem_of_mem_head? hy)
      · apply List.Chain'.cons'
        · apply List.Chain'.cons' (ih (done + 1))
          intro y hy
          exact driverLoop_done_lb total rest (done + 1) y (List.mem_of_mem_head? hy)
        · intro y hy
          simp only [List.head?_cons, Option.mem_some_iff] at hy
          subst hy
          exact Nat.le_succ done
      · refine List.chain'_cons.mpr ⟨le_refl done, List.chain'_singleton _⟩
      · exact List.chain'_singleton _

theorem spnn_nil (st : Stage) : stagePercentsNoNotice st [] = [] := rfl

theorem spnn_cons_keep (st : Stage) (e : Ev) (l : List Ev)
    (h : e.etype = EvType.progress ∧ e.stage = st ∧ e.kind ≠ MsgKind.fallbackNotice) :
    stagePercentsNoNotice st (e :: l) = e.percent :: stagePercentsNoNotice st l := by
  obtain ⟨h1, h2, h3⟩ := h
  unfold stagePercentsNoNotice
  simp [List.filter_cons, h1, h2, h3]

theorem spnn_cons_drop (st : Stage) (e : Ev) (l : List Ev)
    (h : ¬ (e.etype = EvType.progress ∧ e.stage = st ∧ e.kind ≠ MsgKind.fallbackNotice)) :
    stagePercentsNoNotice st (e :: l) = stagePercentsNoNotice st l := by
  unfold stagePercentsNoNotice
  simp [List.filter_cons, h]

theorem driverLoop_pctsT (total : ℕ) :
    ∀ (chunks : List RunChunk) (done : ℕ),
      List.Chain' (· ≤ ·)
        (stagePercentsNoNotice .transcribe (driverLoop total chunks done)) ∧
      ∀ x ∈ stagePercentsNoNotice .transcribe (driverLoop total chunks done),
        pct (10 + ((done : ℚ) / (max total 1 : ℕ)) * 80) ≤ x := by
  intro chunks
  induction chunks with
  | nil =>
    intro done
    rw [driverLoop, spnn_cons_drop _ _ _ (by simp), spnn_nil]
    exact ⟨List.chain'_nil, by simp⟩
  | cons c rest ih =>
    intro done
    rw [driverLoop]
    by_cases hp : c.preDone
    · rw [if_pos hp]
      exact ih done
    · rw [if_neg hp]
      rcases hc : c.outcome with _ | _ | _ | _
      · rw [spnn_cons_keep _ _ _ (by simp)]
        dsimp only
        refine ⟨List.Chain'.cons' (ih (done + 1)).1 ?_, ?_⟩
        · intro y hy
          exact (ih (done + 1)).2 y (List.mem_of_mem_head? hy)
        · intro x hx
          rcases List.mem_cons.mp hx with rfl | hx
          · exact chunkPct_mono total (Nat.le_succ done)
          · exact (chunkPct_mono total (Nat.le_succ done)).trans
              ((ih (done + 1)).2 x hx)
      · rw [spnn_cons_drop _ _ _ (by simp), spnn_cons_keep _ _ _ (by simp)]
        dsimp only
        refine ⟨List.Chain'.cons' (ih (done + 1)).1 ?_, ?_⟩
        · intro y hy
          exact (ih (done + 1)).2 y (List.mem_of_mem_head? hy)
        · intro x hx
          rcases List.mem_cons.mp hx with rfl | hx
          · exact chunkPct_mono total (Nat.le_succ done)
          · exact (chunkPct_mono total (Nat.le_succ done)).trans
              ((ih (done + 1)).2 x hx)
      · rw [spnn_cons_drop _ _ _ (by simp), spnn_cons_drop _ _ _ (by simp), spnn_nil]
        exact ⟨List.chain'_nil, by simp⟩
      · rw [spnn_cons_drop _ _ _ (by simp), spnn_nil]
        exact ⟨List.chain'_nil, by simp⟩

theorem driverLoop_pcts_preprocess (total : ℕ) :
    ∀ (chunks : List RunChunk) (done : ℕ),
      stagePercentsNoNotice .preprocess (driverLoop total chunks done) = [] := by
  intro chunks
  induction chunks with
  | nil =>
    intro done
    rw [driverLoop, spnn_cons_drop _ _ _ (by simp), spnn_nil]
  | cons c rest ih =>
    intro done
    rw [driverLoop]
    by_cases hp : c.preDone
    · rw [if_pos hp]; exact ih done
    · rw [if_neg hp]
      rcases hc : c.outcome with _ | _ | _ | _
      · rw [spnn_cons_drop _ _ _ (by simp)]; exact ih (done + 1)
      · rw [spnn_cons_drop _ _ _ (by simp), spnn_cons_drop _ _ _ (by simp)]
        exact ih (done + 1)
      · rw [spnn_cons_drop _ _ _ (by simp), spnn_cons_drop _ _ _ (by simp), spnn_nil]
      · rw [spnn_cons_drop _ _ _ (by simp), spnn_nil]

theorem driverLoop_pcts_merge (total : ℕ) :
    ∀ (chunks : List RunChunk) (done : ℕ),
      stagePercentsNoNotice .merge (driverLoop total chunks done) = [] ∨
      stagePercentsNoNotice .merge (driverLoop total chunks done) = [pct 94] := by
  intro chunks
  induction chunks with
  | nil =>
    intro done
    rw [driverLoop, spnn_cons_keep _ _ _ (by simp), spnn_nil]
    exact Or.inr rfl
  | cons c rest ih =>
    intro done
    rw [driverLoop]
    by_cases hp : c.preDone
    · rw [if_pos hp]; exact ih done
    · rw [if_neg hp]
      rcases hc : c.outcome with _ | _ | _ | _
      · rw [spnn_cons_drop _ _ _ (by simp)]; exact ih (done + 1)
      · rw [spnn_cons_drop _ _ _ (by simp), spnn_cons_drop _ _ _ (by simp)]
        exact ih (done + 1)
      · rw [spnn_cons_drop _ _ _ (by simp), spnn_cons_drop _ _ _ (by simp), spnn_nil]
        exact Or.inl rfl
      · rw [spnn_cons_drop _ _ _ (by simp), spnn_nil]
        exact Or.inl rfl

/-- C6, amended: over a single driver run `chunks_done` is
non-decreasing across all payload events, and within each stage the
percent values of the `progress` events are non-decreasing once the
fallback-notice events are excluded — those use a 70%-scale formula and
can dip below the preceding chunk-completion percent. -/
theorem c6_progress_monotone (chunks : List RunChunk) :
    List.Chain' (fun a b => a.chunksDone ≤ b.chunksDone) (driverEvents chunks) ∧
    ∀ st : Stage, List.Chain' (· ≤ ·)
      (stagePercentsNoNotice st (driverEvents chunks)) := by
  constructor
  · unfold driverEvents
    apply List.Chain'.cons' (driverLoop_done_chain chunks.length chunks _)
    intro y hy
    exact Nat.zero_le _
  · intro st
    unfold driverEvents
    rcases st with _ | _ | _
    · rw [spnn_cons_keep _ _ _ (by simp),
        driverLoop_pcts_preprocess chunks.length chunks _]
      exact List.chain'_singleton _
    · rw [spnn_cons_drop _ _ _ (by simp)]
      exact (driverLoop_pctsT chunks.length chunks _).1
    · rw [spnn_cons_drop _ _ _ (by simp)]
      rcases driverLoop_pcts_merge chunks.length chunks
        (chunks.countP (·.preDone)) with h | h <;> rw [h]
      · exact List.chain'_nil
      · exact List.chain'_singleton _

/-- The run of the counterexample: first chunk succeeds remotely, the
second needs the fallback. -/
def c6Demo : List RunChunk := [⟨false, .remoteOk⟩, ⟨false, .fallbackOk⟩]

/-- C6 as stated is false: within the `transcribe` stage the emitted
`progress` percents are `[50, 45, 90]` — the fallback notice for chunk
2 (70%-scale) dips below the completion percent of chunk 1
(80%-scale). -/
theorem c6_counterexample :
    stagePercents Stage.transcribe (driverEvents c6Demo) = [50, 45, 90] ∧
    ¬ List.Chain' (· ≤ ·) (stagePercents Stage.transcribe (driverEvents c6Demo)) := by
  have heq : stagePercents Stage.transcribe (driverEvents c6Demo) = [50, 45, 90] := by
    with_unfolding_all decide
  refine ⟨heq, ?_⟩
  intro hch
  rw [heq] at hch
  have h50 := (List.chain'_cons.mp hch).1
  norm_num at h50

/-! ### Claim C5: idempotence of the post-processing pipeline -/

/-- Input of the C5 counterexample: three utterances of one speaker
that individually pass the style-noise filter but whose run-merged
concatenation contains the technical-meta keyword "kan ikke se". -/
def c5Demo : List Segment :=
  [⟨0, 1, "a".data, "jeg kan".data, none⟩,
   ⟨2, 3, "a".data, "ikke se".data, none⟩,
   ⟨4, 5, "a".data, "hvad du viser".data, none⟩]

/-- C5 as stated is false: the first pass merges the three segments
into "jeg kan ikke se hvad du viser" (7 words, containing the
technical-meta keyword "kan ikke se"), which the second pass's
style-noise filter then drops entirely. -/
theorem c5_counterexample :
    mergeAndLabel c5Demo 1 1 =
      [⟨0, 5, "I".data, "jeg kan ikke se hvad du viser".data, none⟩] ∧
    mergeAndLabel (coerceSegments (mergeAndLabel c5Demo 1 1)) 1 1 = [] ∧
    mergeAndLabel (coerceSegments (mergeAndLabel c5Demo 1 1)) 1 1 ≠
      mergeAndLabel c5Demo 1 1 := by
  refine ⟨?_, ?_, ?_⟩ <;> with_unfolding_all decide

/-! #### Token theory for `_strip_fillers`

`_strip_fillers` splits on whitespace, drops filler tokens, re-joins
with single spaces and strips `" ,.-"`.  The lemmas below characterise
its output as a join of non-empty whitespace-free tokens whose words
are not fillers, with non-stripped end characters — which makes the
function idempotent. -/

/-- A well-formed token: non-empty and whitespace-free. -/
def TokOk (tok : List Char) : Prop :=
  tok ≠ [] ∧ ∀ c ∈ tok, isPySpace c = false

theorem splitWsAux_toks :
    ∀ (l acc : List Char), (∀ c ∈ acc, isPySpace c = false) →
      ∀ tok ∈ splitWsAux l acc, TokOk tok := by
  intro l
  induction l with
  | nil =>
    intro acc hacc tok htok
    rw [splitWsAux] at htok
    by_cases ha : acc = []
    · rw [if_pos ha] at htok
      exact absurd htok (by simp)
    · rw [if_neg ha] at htok
      rw [List.mem_singleton] at htok
      subst htok
      refine ⟨by simpa using ha, ?_⟩
      intro c hc
      exact hacc c (List.mem_reverse.mp hc)
  | cons x xs ih =>
    intro acc hacc tok htok
    rw [splitWsAux] at htok
    by_cases hx : isPySpace x
    · rw [if_pos hx] at htok
      by_cases ha : acc = []
      · rw [if_pos ha] at htok
        exact ih [] (by simp) tok htok
      · rw [if_neg ha] at htok
        rcases List.mem_cons.mp htok with rfl | htok
        · refine ⟨by simpa using ha, ?_⟩
          intro c hc
          exact hacc c (List.mem_reverse.mp hc)
        · exact ih [] (by simp) tok htok
    · rw [if_neg hx] at htok
      refine ih (x :: acc) ?_ tok htok
      intro c hc
      rcases List.mem_cons.mp hc with rfl | hc
      · exact eq_false_of_ne_true hx
      · exact hacc c hc

theorem splitWs_toks (l : List Char) : ∀ tok ∈ splitWs l, TokOk tok :=
  splitWsAux_toks l [] (by simp)

theorem splitWsAux_append_nonspace :
    ∀ (t : List Char), (∀ c ∈ t, isPySpace c = false) →
      ∀ (l acc : List Char), splitWsAux (t ++ l) acc = splitWsAux l (t.reverse ++ acc) := by
  intro t
  induction t with
  | nil => intro _ l acc; simp
  | cons c t' ih =>
    intro ht l acc
    have hc : isPySpace c = false := ht c (List.mem_cons_self c t')
    rw [List.cons_append, splitWsAux, if_neg (by simp [hc])]
    rw [ih (fun d hd => ht d (List.mem_cons_of_mem c hd)) l (c :: acc)]
    congr 1
    simp

theorem splitWs_joinTokens :
    ∀ (toks : List (List Char)), (∀ tok ∈ toks, TokOk tok) →
      splitWs (joinTokens toks) = toks := by
  intro toks
  induction toks with
  | nil => intro _; rfl
  | cons t rest ih =>
    intro hok
    have ht := hok t (List.mem_cons_self t rest)
    cases rest with
    | nil =>
      show splitWsAux (joinTokens [t]) [] = [t]
      rw [joinTokens]
      have := splitWsAux_append_nonspace t ht.2 [] []
      rw [List.append_nil] at this
      rw [this, splitWsAux, if_neg (by simp [ht.1]), List.append_nil, List.reverse_reverse]
    | cons t2 rest2 =>
      show splitWsAux (joinTokens (t :: t2 :: rest2)) [] = t :: t2 :: rest2
      rw [show joinTokens (t :: t2 :: rest2) = t ++ ' ' :: joinTokens (t2 :: rest2) from rfl]
      rw [splitWsAux_append_nonspace t ht.2 _ []]
      rw [splitWsAux, if_pos (by decide), if_neg (by simp [ht.1])]
      rw [List.append_nil, List.reverse_reverse]
      congr 1
      exact ih (fun tok htok => hok tok (List.mem_cons_of_mem t htok))

theorem collapseRunsAux_append_nonspace :
    ∀ (t : List Char), t ≠ [] → (∀ c ∈ t, isPySpace c = false) →
      ∀ (l : List Char) (b : Bool),
        collapseRunsAux (t ++ l) b = t ++ collapseRunsAux l false := by
  intro t
  induction t with
  | nil => intro h; exact absurd rfl h
  | cons c t' ih =>
    intro _ ht l b
    have hc : isPySpace c = false := ht c (List.mem_cons_self c t')
    rw [List.cons_append, collapseRunsAux, if_neg (by simp [hc])]
    cases t' with
    | nil => simp
    | cons d t'' =>
      rw [ih (by simp) (fun e he => ht e (List.mem_cons_of_mem c he)) l false]
      simp

theorem collapseRunsAux_flag :
    ∀ (l : List Char), (∀ c, l.head? = some c → isPySpace c = false) →
      collapseRunsAux l true = collapseRunsAux l false := by
  intro l hl
  cases l with
  | nil => rfl
  | cons c l' =>
    have hc : isPySpace c = false := hl c rfl
    rw [collapseRunsAux, collapseRunsAux, if_neg (by simp [hc]), if_neg (by simp [hc])]

theorem joinTokens_head_char :
    ∀ (toks : List (List Char)), (∀ tok ∈ toks, TokOk tok) →
      ∀ c, (joinTokens toks).head? = some c →
        isPySpace c = false ∧ c ∈ (toks.headD []) := by
  intro toks hok c hc
  cases toks with
  | nil => exact absurd hc (by simp [joinTokens])
  | cons t rest =>
    have ht := hok t (List.mem_cons_self t rest)
    obtain ⟨x, t', rfl⟩ := List.exists_cons_of_ne_nil ht.1
    have hx : (joinTokens ((x :: t') :: rest)).head? = some x := by
      cases rest with
      | nil => rfl
      | cons t2 rest2 => rfl
    rw [hx] at hc
    injection hc with hxc
    subst hxc
    exact ⟨ht.2 _ (List.mem_cons_self _ _), by simp⟩

theorem joinTokens_ne_nil {toks : List (List Char)} (h1 : toks ≠ [])
    (h2 : ∀ tok ∈ toks, TokOk tok) : joinTokens toks ≠ [] := by
  obtain ⟨t, rest, rfl⟩ := List.exists_cons_of_ne_nil h1
  have ht := h2 t (List.mem_cons_self t rest)
  obtain ⟨x, t', rfl⟩ := List.exists_cons_of_ne_nil ht.1
  cases rest with
  | nil => simp [joinTokens]
  | cons t2 rest2 =>
    rw [show joinTokens ((x :: t') :: t2 :: rest2) =
      (x :: t') ++ ' ' :: joinTokens (t2 :: rest2) from rfl]
    simp

theorem collapseRuns_joinTokens :
    ∀ (toks : List (List Char)), (∀ tok ∈ toks, TokOk tok) →
      collapseRuns (joinTokens toks) = joinTokens toks := by
  intro toks
  induction toks with
  | nil => intro _; rfl
  | cons t rest ih =>
    intro hok
    have ht := hok t (List.mem_cons_self t rest)
    have hrest : ∀ tok ∈ rest, TokOk tok :=
      fun tok htok => hok tok (List.mem_cons_of_mem t htok)
    cases rest with
    | nil =>
      show collapseRunsAux (joinTokens [t]) false = joinTokens [t]
      rw [joinTokens]
      have hstep := collapseRunsAux_append_nonspace t ht.1 ht.2 [] false
      rw [List.append_nil] at hstep
      rw [hstep, show collapseRunsAux [] false = [] from rfl, List.append_nil]
    | cons t2 rest2 =>
      show collapseRunsAux (joinTokens (t :: t2 :: rest2)) false = joinTokens (t :: t2 :: rest2)
      rw [show joinTokens (t :: t2 :: rest2) = t ++ ' ' :: joinTokens (t2 :: rest2) from rfl]
      rw [collapseRunsAux_append_nonspace t ht.1 ht.2 _ false]
      rw [collapseRunsAux, if_pos (by decide), if_neg (by decide)]
      rw [collapseRunsAux_flag (joinTokens (t2 :: rest2))
        (fun c hc => (joinTokens_head_char (t2 :: rest2) hrest c hc).1)]
      have ih' := ih hrest
      rw [collapseRuns] at ih'
      rw [ih']

theorem wordOf_append (a b : List Char) : wordOf (a ++ b) = wordOf a ++ wordOf b := by
  unfold wordOf
  rw [List.map_append, List.filter_append]

theorem wordOf_eq_nil_of_all {l : List Char}
    (h : ∀ c ∈ l, isWordChar (pyToLower c) = false) : wordOf l = [] := by
  unfold wordOf
  rw [List.filter_eq_nil_iff]
  intro a ha
  obtain ⟨c, hc, rfl⟩ := List.mem_map.mp ha
  simp [h c hc]

theorem stripSet_not_word {c : Char} (h : (" ,.-".data).contains c = true) :
    isWordChar (pyToLower c) = false := by
  have hmem : c ∈ " ,.-".data := List.elem_iff.mp h
  fin_cases hmem <;> decide

theorem stripSet_not_space_head {toks : List (List Char)}
    (hok : ∀ tok ∈ toks, TokOk tok) {c : Char}
    (hc : (joinTokens toks).head? = some c) : isPySpace c = false :=
  (joinTokens_head_char toks hok c hc).1

theorem wordOf_dropWhile_stripSet (t : List Char) :
    wordOf (t.dropWhile ((" ,.-".data).contains)) = wordOf t := by
  conv_rhs => rw [← List.takeWhile_append_dropWhile ((" ,.-".data).contains) t]
  rw [wordOf_append]
  rw [wordOf_eq_nil_of_all (fun c hc => stripSet_not_word (List.mem_takeWhile_imp hc))]
  rfl

theorem wordOf_reverse (t : List Char) : wordOf t.reverse = (wordOf t).reverse := by
  unfold wordOf
  rw [List.map_reverse, List.filter_reverse]

theorem joinTokens_append_singleton (y : List Char) :
    ∀ (xs : List (List Char)), xs ≠ [] →
      joinTokens (xs ++ [y]) = joinTokens xs ++ ' ' :: y := by
  intro xs
  induction xs with
  | nil => intro h; exact absurd rfl h
  | cons x xs' ih =>
    intro _
    cases xs' with
    | nil => rfl
    | cons x2 xs'' =>
      show x ++ ' ' :: joinTokens ((x2 :: xs'') ++ [y]) =
        joinTokens (x :: x2 :: xs'') ++ ' ' :: y
      rw [ih (by simp)]
      rw [show joinTokens (x :: x2 :: xs'') = x ++ ' ' :: joinTokens (x2 :: xs'') from rfl]
      simp

theorem joinTokens_reverse :
    ∀ (toks : List (List Char)),
      (joinTokens toks).reverse = joinTokens ((toks.map List.reverse).reverse) := by
  intro toks
  induction toks with
  | nil => rfl
  | cons t rest ih =>
    cases rest with
    | nil => rfl
    | cons t2 rest2 =>
      rw [show joinTokens (t :: t2 :: rest2) = t ++ ' ' :: joinTokens (t2 :: rest2) from rfl]
      rw [List.reverse_append, List.reverse_cons, ih]
      conv_rhs => rw [List.map_cons, List.reverse_cons]
      rw [joinTokens_append_singleton t.reverse
        ((List.map List.reverse (t2 :: rest2)).reverse) (by simp)]
      simp

theorem joinTokens_head? (t : List Char) (rest : List (List Char)) (h : t ≠ []) :
    (joinTokens (t :: rest)).head? = t.head? := by
  obtain ⟨x, t', rfl⟩ := List.exists_cons_of_ne_nil h
  cases rest with
  | nil => rfl
  | cons t2 rest2 => rfl

theorem TokOk_reverse {tok : List Char} (h : TokOk tok) : TokOk tok.reverse :=
  ⟨by simp [h.1], fun c hc => h.2 c (List.mem_reverse.mp hc)⟩

theorem dropWhile_getLast? {p : Char → Bool} {l : List Char}
    (h : l.dropWhile p ≠ []) : (l.dropWhile p).getLast? = l.getLast? := by
  conv_rhs => rw [← List.takeWhile_append_dropWhile p l]
  rw [List.getLast?_append]
  rcases hg : (l.dropWhile p).getLast? with _ | c
  · rw [List.getLast?_eq_none_iff] at hg
    exact absurd hg h
  · rfl

theorem dropWhile_stripSet_joinTokens :
    ∀ (toks : List (List Char)), (∀ tok ∈ toks, TokOk tok) →
      ∃ toks' : List (List Char),
        (joinTokens toks).dropWhile ((" ,.-".data).contains) = joinTokens toks' ∧
        (∀ tok ∈ toks', TokOk tok) ∧
        (∀ t' ∈ toks', ∃ t ∈ toks, wordOf t' = wordOf t) ∧
        (∀ c, (joinTokens toks').head? = some c → (" ,.-".data).contains c = false) := by
  intro toks
  induction toks with
  | nil => intro _; exact ⟨[], rfl, by simp, by simp, by simp [joinTokens]⟩
  | cons t rest ih =>
    intro hok
    have ht := hok t (List.mem_cons_self t rest)
    have hrest : ∀ tok ∈ rest, TokOk tok :=
      fun tok htok => hok tok (List.mem_cons_of_mem t htok)
    by_cases hdt : t.dropWhile ((" ,.-".data).contains) = []
    · cases rest with
      | nil =>
        refine ⟨[], ?_, by simp, by simp, by simp [joinTokens]⟩
        show (joinTokens [t]).dropWhile ((" ,.-".data).contains) = joinTokens []
        rw [joinTokens]
        exact hdt
      | cons t2 rest2 =>
        obtain ⟨toks', h1, h2, h3, h4⟩ := ih hrest
        refine ⟨toks', ?_, h2, ?_, h4⟩
        · rw [show joinTokens (t :: t2 :: rest2) =
            t ++ ' ' :: joinTokens (t2 :: rest2) from rfl]
          rw [List.dropWhile_append, hdt]
          rw [show (([] : List Char)).isEmpty = true from rfl, if_pos rfl]
          rw [List.dropWhile_cons, if_pos (by decide)]
          exact h1
        · intro t' ht'
          obtain ⟨t0, ht0, hw⟩ := h3 t' ht'
          exact ⟨t0, List.mem_cons_of_mem t ht0, hw⟩
    · refine ⟨t.dropWhile ((" ,.-".data).contains) :: rest, ?_, ?_, ?_, ?_⟩
      · cases rest with
        | nil =>
          show (joinTokens [t]).dropWhile ((" ,.-".data).contains) =
            joinTokens [t.dropWhile ((" ,.-".data).contains)]
          rw [joinTokens, joinTokens]
        | cons t2 rest2 =>
          rw [show joinTokens (t :: t2 :: rest2) =
            t ++ ' ' :: joinTokens (t2 :: rest2) from rfl]
          rw [show joinTokens (t.dropWhile ((" ,.-".data).contains) :: t2 :: rest2) =
            t.dropWhile ((" ,.-".data).contains) ++ ' ' :: joinTokens (t2 :: rest2) from rfl]
          rw [List.dropWhile_append]
          rw [if_neg (by simp [List.isEmpty_iff, hdt])]
      · intro tok htok
        rcases List.mem_cons.mp htok with rfl | htok
        · refine ⟨hdt, ?_⟩
          intro c hc
          exact ht.2 c ((List.dropWhile_sublist _).subset hc)
        · exact hrest tok htok
      · intro t' ht'
        rcases List.mem_cons.mp ht' with rfl | ht'
        · exact ⟨t, List.mem_cons_self t rest, wordOf_dropWhile_stripSet t⟩
        · exact ⟨t', List.mem_cons_of_mem t ht', rfl⟩
      · intro c hc
        rw [joinTokens_head? _ _ hdt] at hc
        rw [List.head?_eq_head hdt] at hc
        injection hc with hxc
        rw [← hxc]
        exact List.head_dropWhile_not ((" ,.-".data).contains) t hdt

theorem stripEnds_eq_self {p : Char → Bool} {l : List Char}
    (hhead : ∀ c, l.head? = some c → p c = false)
    (hlast : ∀ c, l.getLast? = some c → p c = false) :
    ((l.dropWhile p).reverse.dropWhile p).reverse = l := by
  have h1 : l.dropWhile p = l := by
    cases l with
    | nil => rfl
    | cons c l' => rw [List.dropWhile_cons, if_neg (by simp [hhead c rfl])]
  rw [h1]
  have h2 : l.reverse.dropWhile p = l.reverse := by
    rcases hr : l.reverse with _ | ⟨c, r'⟩
    · rfl
    · have hcl : l.getLast? = some c := by
        rw [← List.head?_reverse, hr]
        rfl
      rw [List.dropWhile_cons, if_neg (by simp [hlast c hcl])]
  rw [h2, List.reverse_reverse]

theorem pyStripChars_joinTokens (toks : List (List Char))
    (hok : ∀ tok ∈ toks, TokOk tok) :
    ∃ toks',
      pyStripChars " ,.-".data (joinTokens toks) = joinTokens toks' ∧
      (∀ tok ∈ toks', TokOk tok) ∧
      (∀ t' ∈ toks', ∃ t ∈ toks, wordOf t' = wordOf t) ∧
      (∀ c, (joinTokens toks').head? = some c → (" ,.-".data).contains c = false) ∧
      (∀ c, (joinTokens toks').getLast? = some c → (" ,.-".data).contains c = false) := by
  obtain ⟨toksL, hL1, hL2, hL3, hL4⟩ := dropWhile_stripSet_joinTokens toks hok
  have hLrev_ok : ∀ tok ∈ (toksL.map List.reverse).reverse, TokOk tok := by
    intro tok htok
    rw [List.mem_reverse] at htok
    obtain ⟨t0, ht0, rfl⟩ := List.mem_map.mp htok
    exact TokOk_reverse (hL2 t0 ht0)
  obtain ⟨toksR, hR1, hR2, hR3, hR4⟩ :=
    dropWhile_stripSet_joinTokens ((toksL.map List.reverse).reverse) hLrev_ok
  refine ⟨(toksR.map List.reverse).reverse, ?_, ?_, ?_, ?_, ?_⟩
  · unfold pyStripChars
    rw [hL1, joinTokens_reverse toksL, hR1, joinTokens_reverse toksR]
  · intro tok htok
    rw [List.mem_reverse] at htok
    obtain ⟨t0, ht0, rfl⟩ := List.mem_map.mp htok
    exact TokOk_reverse (hR2 t0 ht0)
  · intro t3 ht3
    rw [List.mem_reverse] at ht3
    obtain ⟨t2, ht2, rfl⟩ := List.mem_map.mp ht3
    obtain ⟨s, hs, hws⟩ := hR3 t2 ht2
    rw [List.mem_reverse] at hs
    obtain ⟨tL, htL, rfl⟩ := List.mem_map.mp hs
    obtain ⟨t0, ht0, hw0⟩ := hL3 tL htL
    refine ⟨t0, ht0, ?_⟩
    rw [wordOf_reverse, hws, wordOf_reverse, hw0]
    rw [← hw0, List.reverse_reverse, hw0]
  · -- head of the final join is the last surviving char of the
    -- left-stripped string, which came from the original head side
    intro c hc
    rw [← joinTokens_reverse toksR, List.head?_reverse] at hc
    by_cases hR : joinTokens toksR = []
    · rw [hR] at hc
      exact absurd hc (by simp)
    · rw [← hR1] at hc hR
      rw [dropWhile_getLast? hR] at hc
      rw [← joinTokens_reverse toksL, List.getLast?_reverse] at hc
      exact hL4 c hc
  · intro c hc
    rw [← joinTokens_reverse toksR, List.getLast?_reverse] at hc
    exact hR4 c hc

theorem joinTokens_getLast_char (toks : List (List Char))
    (hok : ∀ tok ∈ toks, TokOk tok) :
    ∀ c, (joinTokens toks).getLast? = some c → isPySpace c = false := by
  intro c hc
  have hrev : (joinTokens toks).reverse.head? = some c := by
    rw [List.head?_reverse]
    exact hc
  rw [joinTokens_reverse] at hrev
  have hokrev : ∀ tok ∈ (toks.map List.reverse).reverse, TokOk tok := by
    intro tok htok
    rw [List.mem_reverse] at htok
    obtain ⟨t0, ht0, rfl⟩ := List.mem_map.mp htok
    exact TokOk_reverse (hok t0 ht0)
  exact (joinTokens_head_char _ hokrev c hrev).1

theorem stripFillers_structure (t : List Char) :
    ∃ toks,
      stripFillers t = joinTokens toks ∧
      (∀ tok ∈ toks, TokOk tok) ∧
      (∀ tok ∈ toks, FILLER_TOKENS.contains (wordOf tok) = false) ∧
      (∀ c, (joinTokens toks).head? = some c → (" ,.-".data).contains c = false) ∧
      (∀ c, (joinTokens toks).getLast? = some c → (" ,.-".data).contains c = false) := by
  have hkept_ok : ∀ tok ∈ (splitWs t).filter
      (fun tok => !(FILLER_TOKENS.contains (wordOf tok))), TokOk tok := by
    intro tok htok
    exact splitWs_toks t tok (List.mem_of_mem_filter htok)
  obtain ⟨toks, h1, h2, h3, h4, h5⟩ := pyStripChars_joinTokens _ hkept_ok
  refine ⟨toks, ?_, h2, ?_, h4, h5⟩
  · unfold stripFillers
    rw [collapseRuns_joinTokens _ hkept_ok]
    exact h1
  · intro tok htok
    obtain ⟨t0, ht0, hw⟩ := h3 tok htok
    have := List.of_mem_filter ht0
    rw [hw]
    simpa using this

theorem stripFillers_idem (t : List Char) :
    stripFillers (stripFillers t) = stripFillers t := by
  obtain ⟨toks, heq, hok, hfil, hhead, hlast⟩ := stripFillers_structure t
  rw [heq]
  unfold stripFillers
  rw [splitWs_joinTokens toks hok]
  rw [List.filter_eq_self.mpr (fun tok htok => by rw [hfil tok htok]; rfl)]
  rw [collapseRuns_joinTokens toks hok]
  exact stripEnds_eq_self hhead hlast

theorem pyStripWs_stripFillers (t : List Char) :
    pyStripWs (stripFillers t) = stripFillers t := by
  obtain ⟨toks, heq, hok, _, _, _⟩ := stripFillers_structure t
  rw [heq]
  unfold pyStripWs
  apply stripEnds_eq_self
  · intro c hc
    exact (joinTokens_head_char toks hok c hc).1
  · intro c hc
    exact joinTokens_getLast_char toks hok c hc

/-! #### The pipeline on singleton inputs -/

theorem pySortSegments_singleton (s : Segment) : pySortSegments [s] = [s] := rfl

theorem dedupeSegments_singleton (s : Segment) (h : pyStripWs s.text ≠ []) :
    dedupeSegments [s] = [s] := by
  unfold dedupeSegments
  rw [pySortSegments_singleton]
  rw [List.foldl_cons, List.foldl_nil]
  rw [dedupeStep, if_neg h]
  rfl

theorem dedupeSegments_singleton_blank (s : Segment) (h : pyStripWs s.text = []) :
    dedupeSegments [s] = [] := by
  unfold dedupeSegments
  rw [pySortSegments_singleton]
  rw [List.foldl_cons, List.foldl_nil]
  rw [dedupeStep, if_pos h]
  rfl

theorem inferInterviewerSpeakers_singleton (x : Segment)
    (interviewer_count participant_count : ℤ) :
    inferInterviewerSpeakers [x] interviewer_count participant_count =
      [defaultSpeaker x.speaker] := by
  unfold inferInterviewerSpeakers
  rw [if_neg (by simp : ¬([x] : List Segment) = [])]
  have hst : collectStats [x] =
      [(defaultSpeaker x.speaker, bumpStats ⟨x.start_sec, 0, 0, 0⟩ x)] := rfl
  dsimp only
  rw [hst]
  rw [if_pos (by norm_num : ([(defaultSpeaker x.speaker,
    bumpStats ⟨x.start_sec, 0, 0, 0⟩ x)]).length ≤ 1)]
  rfl

theorem mapToInterviewerParticipant_singleton (x : Segment)
    (interviewer_count participant_count : ℤ) :
    mapToInterviewerParticipant [x] interviewer_count participant_count =
      [{ startSec := round3 x.start_sec,
         endSec := round3 x.end_sec,
         speaker := "I".data,
         text := pyStripWs x.text,
         confidence := x.confidence.map round4 }] := by
  unfold mapToInterviewerParticipant
  rw [pySortSegments_singleton]
  dsimp only
  rw [inferInterviewerSpeakers_singleton x interviewer_count participant_count]
  rw [List.map_singleton]
  congr 1
  rw [if_pos]
  show List.elem _ _ = true
  exact List.elem_iff.mpr (List.mem_singleton_self _)

theorem mergeAndLabel_nil (interviewer_count participant_count : ℤ) :
    mergeAndLabel [] interviewer_count participant_count = [] := rfl

theorem coerceSegments_nil : coerceSegments [] = [] := rfl

theorem filterNoisePass_singleton_kept (s : Segment)
    (h0 : stripFillers (pyStripWs s.text) ≠ [])
    (h1 : isBackchannel (stripFillers (pyStripWs s.text)) = false)
    (h2 : isTechnicalMeta (stripFillers (pyStripWs s.text)) = false) :
    filterNoisePass [s] =
      [{ start_sec := s.start_sec,
         end_sec := s.end_sec,
         speaker := s.speaker,
         text := stripFillers (pyStripWs s.text),
         confidence := s.confidence }] := by
  unfold filterNoisePass
  rw [pySortSegments_singleton]
  simp only [List.filterMap_cons, List.filterMap_nil]
  rw [if_neg h0, if_neg (by simp [h1]), if_neg (by simp [h2])]

theorem filterNoisePass_singleton_dropped (s : Segment)
    (h : stripFillers (pyStripWs s.text) = [] ∨
      isBackchannel (stripFillers (pyStripWs s.text)) = true ∨
      isTechnicalMeta (stripFillers (pyStripWs s.text)) = true) :
    filterNoisePass [s] = [] := by
  unfold filterNoisePass
  rw [pySortSegments_singleton]
  simp only [List.filterMap_cons, List.filterMap_nil]
  rcases h with h0 | h1 | h2
  · rw [if_pos h0]
  · by_cases h0 : stripFillers (pyStripWs s.text) = []
    · rw [if_pos h0]
    · rw [if_neg h0, if_pos h1]
  · by_cases h0 : stripFillers (pyStripWs s.text) = []
    · rw [if_pos h0]
    · rw [if_neg h0]
      by_cases h1 : isBackchannel (stripFillers (pyStripWs s.text)) = true
      · rw [if_pos h1]
      · rw [if_neg h1, if_pos h2]

theorem filterStyleNoise_of_short {segments l : List Segment}
    (h : filterNoisePass segments = l) (hlen : l.length < 3) :
    filterStyleNoise segments = l := by
  unfold filterStyleNoise
  rw [h, if_pos hlen]

theorem pyOr_zero (x : ℚ) : pyOr x 0 = x := by
  unfold pyOr
  split <;> simp_all

theorem coerceSegments_singleton (u : Utterance) (h : pyStripWs u.text ≠ [])
    (hspk : u.speaker ≠ []) :
    coerceSegments [u] =
      [{ start_sec := u.startSec,
         end_sec := max u.startSec (pyOr u.endSec u.startSec),
         speaker := u.speaker,
         text := pyStripWs u.text,
         confidence := u.confidence }] := by
  unfold coerceSegments
  simp only [List.filterMap_cons, List.filterMap_nil]
  rw [if_neg h]
  rw [show defaultSpeaker u.speaker = u.speaker from if_neg hspk]
  rw [pyOr_zero]

theorem confidence_map_round4_idem (c : Option ℚ) :
    (c.map round4).map round4 = c.map round4 := by
  cases c with
  | none => rfl
  | some x => simp [round4_round4]

/-- C5, amended: the pipeline is idempotent on single-segment inputs
with `0 ≤ start_sec ≤ end_sec` (audio timestamps): the single pass
already leaves the text filler-stripped with unstripped end characters,
the times on the 3-decimal grid and the confidence on the 4-decimal
grid, so a second pass reproduces the same output.  Nonnegativity
matters because `_coerce_segments` treats a stored `endSec` of `0.0` as
falsy and falls back to `start`; on a negative start that rewrites the
end time.  On longer inputs idempotence fails outright (see the
counterexample). -/
theorem c5_postprocess_idem_singleton (s : Segment)
    (interviewer_count participant_count : ℤ) (hnn : 0 ≤ s.start_sec)
    (hse : s.start_sec ≤ s.end_sec) :
    mergeAndLabel
        (coerceSegments (mergeAndLabel [s] interviewer_count participant_count))
        interviewer_count participant_count =
      mergeAndLabel [s] interviewer_count participant_count := by
  by_cases hb : pyStripWs s.text = []
  · have h1 : mergeAndLabel [s] interviewer_count participant_count = [] := by
      unfold mergeAndLabel
      rw [dedupeSegments_singleton_blank s hb]
      rfl
    rw [h1, coerceSegments_nil, mergeAndLabel_nil]
  · have hded := dedupeSegments_singleton s hb
    have hstripcl : pyStripWs (stripFillers (pyStripWs s.text)) =
        stripFillers (pyStripWs s.text) := pyStripWs_stripFillers _
    have hsfcl : stripFillers (stripFillers (pyStripWs s.text)) =
        stripFillers (pyStripWs s.text) := stripFillers_idem _
    by_cases hdrop : stripFillers (pyStripWs s.text) = [] ∨
        isBackchannel (stripFillers (pyStripWs s.text)) = true ∨
        isTechnicalMeta (stripFillers (pyStripWs s.text)) = true
    · have h1 : mergeAndLabel [s] interviewer_count participant_count = [] := by
        unfold mergeAndLabel
        rw [hded,
          filterStyleNoise_of_short (filterNoisePass_singleton_dropped s hdrop)
            (by norm_num)]
        rfl
      rw [h1, coerceSegments_nil, mergeAndLabel_nil]
    · push_neg at hdrop
      obtain ⟨hc0, hbc, htm⟩ := hdrop
      have hbc' : isBackchannel (stripFillers (pyStripWs s.text)) = false :=
        Bool.eq_false_iff.mpr hbc
      have htm' : isTechnicalMeta (stripFillers (pyStripWs s.text)) = false :=
        Bool.eq_false_iff.mpr htm
      have hclean2 : stripFillers (pyStripWs (stripFillers (pyStripWs s.text))) =
          stripFillers (pyStripWs s.text) := by
        rw [hstripcl]
        exact hsfcl
      have hfn := filterNoisePass_singleton_kept s hc0 hbc' htm'
      have hfs := filterStyleNoise_of_short hfn (by norm_num)
      have hML : mergeAndLabel [s] interviewer_count participant_count =
          [{ startSec := round3 s.start_sec, endSec := round3 s.end_sec,
             speaker := "I".data, text := stripFillers (pyStripWs s.text),
             confidence := s.confidence.map round4 }] := by
        unfold mergeAndLabel
        rw [hded, hfs, mapToInterviewerParticipant_singleton]
        dsimp only
        rw [hstripcl]
      rw [hML]
      have hmono : round3 s.start_sec ≤ round3 s.end_sec :=
        roundTo_le_roundTo 1000 (by norm_num) hse
      have h0r : (0 : ℚ) ≤ round3 s.start_sec := by
        have h00 : round3 0 = 0 := round3_eq_of_onGrid ⟨0, by norm_num⟩
        calc (0 : ℚ) = round3 0 := h00.symm
          _ ≤ round3 s.start_sec := roundTo_le_roundTo 1000 (by norm_num) hnn
      have hmax : max (round3 s.start_sec) (pyOr (round3 s.end_sec) (round3 s.start_sec)) =
          round3 s.end_sec := by
        unfold pyOr
        by_cases hz : round3 s.end_sec = 0
        · have hs0 : round3 s.start_sec = 0 := le_antisymm (hz ▸ hmono) h0r
          rw [if_pos hz, max_self, hs0, hz]
        · rw [if_neg hz]
          exact max_eq_right hmono
      have hco : coerceSegments
          [{ startSec := round3 s.start_sec, endSec := round3 s.end_sec,
             speaker := "I".data, text := stripFillers (pyStripWs s.text),
             confidence := s.confidence.map round4 }] =
          [{ start_sec := round3 s.start_sec, end_sec := round3 s.end_sec,
             speaker := "I".data, text := stripFillers (pyStripWs s.text),
             confidence := s.confidence.map round4 }] := by
        rw [coerceSegments_singleton _ (by dsimp only; rw [hstripcl]; exact hc0)
          (by simp)]
        dsimp only
        rw [hstripcl, hmax]
      rw [hco]
      unfold mergeAndLabel
      rw [dedupeSegments_singleton _ (by dsimp only; rw [hstripcl]; exact hc0)]
      rw [filterStyleNoise_of_short
        (filterNoisePass_singleton_kept _ (by dsimp only; rw [hclean2]; exact hc0)
          (by dsimp only; rw [hclean2]; exact hbc')
          (by dsimp only; rw [hclean2]; exact htm'))
        (by norm_num)]
      rw [mapToInterviewerParticipant_singleton]
      dsimp only
      rw [hclean2, hstripcl, round3_round3, round3_round3,
        confidence_map_round4_idem]

/-- Witness for C5 on a single segment with fillers, punctuation and a
confidence value. -/
theorem c5_postprocess_idem_singleton_witness :
    ((0 : ℚ) ≤ (⟨0, 1, "a".data, " øh Hej, med dig -- ".data, some (1/3)⟩ : Segment).start_sec ∧
     (⟨0, 1, "a".data, " øh Hej, med dig -- ".data, some (1/3)⟩ : Segment).start_sec ≤
      (⟨0, 1, "a".data, " øh Hej, med dig -- ".data, some (1/3)⟩ : Segment).end_sec) ∧
    mergeAndLabel (coerceSegments (mergeAndLabel
        [⟨0, 1, "a".data, " øh Hej, med dig -- ".data, some (1/3)⟩] 1 1)) 1 1 =
      mergeAndLabel [⟨0, 1, "a".data, " øh Hej, med dig -- ".data, some (1/3)⟩] 1 1 :=
  ⟨⟨by norm_num, by norm_num⟩,
   c5_postprocess_idem_singleton _ 1 1 (by norm_num) (by norm_num)⟩

end Transkriptor
